import Mathlib

/-!
Verification development for the YinChroma pitch-detection core.

The Python sources are shallowly embedded over exact arithmetic:
floating-point values become `ℚ` (or `ℝ` where the code takes real
logarithms), numpy arrays become functions `ℕ → ℚ` or `List ℚ`, and the
FFT-accelerated convolution is modelled as the exact cyclic convolution
that an FFT/IFFT round trip computes.  Fallible code paths (Python
`ZeroDivisionError` on the final `sample_rate / current_period` division)
are modelled with `Option`.

Sources embedded here:
  * `src/yin_processor.py`      (class `YinProcessor`)
  * `src/pitchdetector.py`      (naive YIN difference loop, lines 291-296)
  * `src/pitchhandler/note_stabilizer.py` (class `NoteStabilizer`)
  * `src/pitch_analyzer.py`     (class `PitchAnalyzer`)
-/

namespace YinChroma

/-! ### YinProcessor: the difference function (src/yin_processor.py, Step 1)

`d(tau) = term1 + term2(tau) - 2 * corr(tau)`, clipped at 0, where the
cross-correlation `corr` is obtained by zero-padded FFT convolution of the
reversed half-chunk template with the whole signal. -/

/-- Cumulative sum of squares with a leading zero:
`cumSq x n = cum_sq[n]` for `cum_sq = concatenate(([0.0], cumsum(signal**2)))`. -/
def cumSq (x : ℕ → ℚ) : ℕ → ℚ
  | 0 => 0
  | n + 1 => cumSq x n + x n ^ 2

/-- `term1 = np.sum(x ** 2)` over the half-chunk template. -/
def term1 (x : ℕ → ℚ) (half : ℕ) : ℚ := ∑ j in Finset.range half, x j ^ 2

/-- `term2[tau] = cum_sq[tau + half_chunk] - cum_sq[tau]` (windowed moving
sum of squares). -/
def term2 (x : ℕ → ℚ) (half tau : ℕ) : ℚ := cumSq x (tau + half) - cumSq x tau

/-- Zero padding used by `np.fft.rfft(v, n=n_fft)`: entries past the array
length contribute zero. -/
def zeroPad (len : ℕ) (x : ℕ → ℚ) : ℕ → ℚ := fun i => if i < len then x i else 0

/-- Exact cyclic convolution of period `n`, which is what the FFT
multiply / inverse-FFT round trip (`irfft(rfft(a) * rfft(b))`) computes.
`(k + n - i) % n` is the index `(k - i) mod n`. -/
def cyclicConv (n : ℕ) (a b : ℕ → ℚ) (k : ℕ) : ℚ :=
  ∑ i in Finset.range n, a i * b ((k + n - i) % n)

/-- `conv_result[half_chunk - 1 + tau]` where the convolution pairs the
reversed template `x[::-1]` (zero-padded to `half` entries) with the
zero-padded signal. -/
def corrAt (x : ℕ → ℚ) (L half nfft tau : ℕ) : ℚ :=
  cyclicConv nfft (zeroPad half fun i => x (half - 1 - i)) (zeroPad L x) (half - 1 + tau)

/-- `diff_buffer[tau] = max(term1 + term2 - 2 * conv, 0)`, the clipped
difference function of `YinProcessor.process` Step 1. -/
def diffFun (x : ℕ → ℚ) (L half nfft tau : ℕ) : ℚ :=
  max (term1 x half + term2 x half tau - 2 * corrAt x L half nfft tau) 0

/-- Fuel-driven core of the `n_fft = 1; while n_fft < min_fft_len: n_fft *= 2`
loop (`acc` doubles each step, so `m` steps of fuel always suffice). -/
def nextPow2Go (m : ℕ) : ℕ → ℕ → ℕ
  | 0, acc => acc
  | fuel + 1, acc => if acc < m then nextPow2Go m fuel (acc * 2) else acc

/-- The FFT size chosen by `YinProcessor.process`: the least power of two
`≥ min_fft_len`, computed by doubling from 1. -/
def nextPow2 (m : ℕ) : ℕ := nextPow2Go m m 1

/-- The naive squared-difference definition computed by the legacy loop in
`PitchDetector._find_fundamental_frequency_yin` (src/pitchdetector.py):
`d(tau) = sum_{j < half} (x[j] - x[j + tau])^2`. -/
def naiveDiff (x : ℕ → ℚ) (half tau : ℕ) : ℚ :=
  ∑ j in Finset.range half, (x j - x (j + tau)) ^ 2

/-! ### YinProcessor: CMNDF and peak search (Steps 2-4) -/

/-- `cumulative_diff = np.cumsum(diff_buffer)` followed by the
`cumulative_diff[0] = 1.0` dummy write (division-by-zero dodge for index 0). -/
def cumDiff (d : ℕ → ℚ) (tau : ℕ) : ℚ :=
  if tau = 0 then 1 else ∑ i in Finset.range (tau + 1), d i

/-- `cmndf_buffer = diff_buffer * arange / cumulative_diff` with
`cmndf_buffer[0] = 1.0`.  numpy produces NaN on an exact 0/0 here; in the
exact model `ℚ` division by zero yields 0 instead (noted where relevant). -/
def cmndf (d : ℕ → ℚ) (tau : ℕ) : ℚ :=
  if tau = 0 then 1 else d tau * (tau : ℚ) / cumDiff d tau

/-- The local-minimum descent
`while tau + 1 < max_period and cmndf[tau+1] < cmndf[tau]: tau += 1`,
written with explicit fuel (the loop advances less than `maxP` times). -/
def walkDown (cm : ℕ → ℚ) (maxP : ℕ) : ℕ → ℕ → ℕ
  | 0, tau => tau
  | fuel + 1, tau =>
      if tau + 1 < maxP ∧ cm (tau + 1) < cm tau then walkDown cm maxP fuel (tau + 1) else tau

/-- `np.argmin(cm[lo:hi]) + lo`: the first index of the minimum value on
`[lo, hi)`. -/
def argminSlice (cm : ℕ → ℚ) (lo hi : ℕ) : ℕ :=
  (List.range' lo (hi - lo)).foldl (fun best i => if cm i < cm best then i else best) lo

/-- `np.where(search_range < threshold)[0]` followed by taking the first
hit: the first lag in the list whose CMNDF value is below the threshold. -/
def findCrossing (cm : ℕ → ℚ) (thr : ℚ) : List ℕ → Option ℕ
  | [] => none
  | t :: rest => if cm t < thr then some t else findCrossing cm thr rest

/-- Step 3: absolute-threshold first pass, returning the chosen lag or
`none` for the two in-search not-found exits. -/
def yinCore (minP maxP : ℕ) (thr : ℚ) (cm : ℕ → ℚ) : Option ℕ :=
  match findCrossing cm thr (List.range' minP (maxP - minP)) with
  | some t0 => some (walkDown cm maxP maxP t0)
  | none =>
      if minP < maxP then
        let bt := argminSlice cm minP maxP
        if 1 ≤ cm bt then none else some bt
      else none

/-- One iteration of the Step 3.5 harmonic-backtracking loop over
`harmonic in range(2, 5)`.  The boolean means the loop `break`s
(`check_tau < min_period`, or a nearby minimum was adopted); a `false`
with unchanged state is the `start >= end: continue` case. -/
def harmonicStep (cm : ℕ → ℚ) (minP maxP bt : ℕ) (cv : ℚ) (h : ℕ) : Bool × ℕ × ℚ :=
  let ct := bt / h
  if ct < minP then (true, bt, cv)
  else
    let lo := max minP (ct - 2)
    let hi := min maxP (ct + 3)
    if hi ≤ lo then (false, bt, cv)
    else
      let ft := argminSlice cm lo hi
      let fv := cm ft
      if fv < 7 / 20 ∧ fv < cv * (5 / 2) then (true, ft, fv)
      else (false, bt, cv)

/-- The Step 3.5 loop body over the harmonics `[2, 3, 4]`. -/
def harmonicLoop (cm : ℕ → ℚ) (minP maxP : ℕ) : List ℕ → ℕ × ℚ → ℕ × ℚ
  | [], st => st
  | h :: rest, (bt, cv) =>
      let s := harmonicStep cm minP maxP bt cv h
      if s.1 then s.2 else harmonicLoop cm minP maxP rest s.2

/-- Step 3.5 entry: probe `tau/2, tau/3, tau/4`. -/
def harmonicRun (cm : ℕ → ℚ) (minP maxP bt : ℕ) : ℕ :=
  (harmonicLoop cm minP maxP [2, 3, 4] (bt, cm bt)).1

/-- Step 4: parabolic interpolation of the period around the chosen lag. -/
def interpPeriod (cm : ℕ → ℚ) (maxP bt : ℕ) : ℚ :=
  if 0 < bt ∧ bt + 1 < maxP then
    let y1 := cm (bt - 1)
    let y2 := cm bt
    let y3 := cm (bt + 1)
    let denom := y1 - 2 * y2 + y3
    if 1 / 1000000 < |denom| then (bt : ℚ) + 1 / 2 * (y1 - y3) / denom else (bt : ℚ)
  else (bt : ℚ)

/-- Constructor state of `YinProcessor`: `min_period = int(rate/max_freq)`,
`max_period = int(rate/min_freq)` (truncation = floor for the positive
values used here). -/
structure YinProc where
  sample_rate : ℚ
  min_freq : ℚ
  max_freq : ℚ
  threshold : ℚ

def YinProc.minPeriod (p : YinProc) : ℕ := (⌊p.sample_rate / p.max_freq⌋).toNat

def YinProc.maxPeriod (p : YinProc) : ℕ := (⌊p.sample_rate / p.min_freq⌋).toNat

/-- Steps 3.5 and 4 once a lag was selected: harmonic backtracking below
250 Hz, parabolic interpolation, conversion to frequency.  `none` is the
Python `ZeroDivisionError` (`sample_rate / best_tau` with `best_tau = 0`,
or `sample_rate / current_period` with a zero interpolated period). -/
def yinFinish (rate : ℚ) (minP maxP : ℕ) (cm : ℕ → ℚ) (bt1 : ℕ) : Option (ℚ × ℚ) :=
  if bt1 = 0 then none
  else
    let bt := if rate / (bt1 : ℚ) < 250 then harmonicRun cm minP maxP bt1 else bt1
    let period := interpPeriod cm maxP bt
    if period = 0 then none else some (rate / period, cm bt)

/-- `YinProcessor.process`: every ordinary path returns
`some (frequency, confidence)`; `none` marks the `ZeroDivisionError`
edges (see `yinFinish`). -/
def yinProcess (p : YinProc) (signal : List ℚ) : Option (ℚ × ℚ) :=
  let L := signal.length
  let half := L / 2
  if L < p.maxPeriod + half then some (0, 1)
  else
    let x := fun i => signal.getD i 0
    let nfft := nextPow2 (L + half)
    let d := diffFun x L half nfft
    let cm := cmndf d
    match yinCore p.minPeriod p.maxPeriod p.threshold cm with
    | none => some (0, 1)
    | some bt1 => yinFinish p.sample_rate p.minPeriod p.maxPeriod cm bt1

/-- Concrete processor used for the all-zero-input evaluation:
`sample_rate = 10`, `min_freq = 2.5`, `max_freq = 5`, `threshold = 0.2`,
so `min_period = 2` and `max_period = 4`. -/
def zeroDemoProc : YinProc := ⟨10, 5 / 2, 5, 1 / 5⟩

/-- An all-zero signal long enough to pass the length check
(`8 ≥ max_period + half_chunk = 4 + 4`). -/
def zeroSignal : List ℚ := List.replicate 8 0

/-- A concrete 8-sample signal; its difference function is
`d = [0, 2, 4, 66]` for the half-chunk template `[0, 0, 1, 1]`. -/
def demoSignal : List ℚ := [0, 0, 1, 1, 0, 0, 9, 0]

/-- `demoSignal` as an indexed signal (out-of-range reads give 0, exactly
as `zeroPad` treats them). -/
def demoSignalFun : ℕ → ℚ := fun i => demoSignal.getD i 0

/-- The demo processor with a loose threshold `1.5 > 1`: legal per the
configuration model, which places no upper bound on `yin_threshold`. -/
def looseProc : YinProc := ⟨10, 5 / 2, 5, 3 / 2⟩

/-- The demo processor with the default threshold `0.2`. -/
def tightProc : YinProc := ⟨10, 5 / 2, 5, 1 / 5⟩

/-! ### NoteStabilizer (src/pitchhandler/note_stabilizer.py)

Frequencies, amplitudes, confidences and thresholds are `ℚ`; cents values
(produced from real logarithms further down the pipeline) are `ℝ`. -/

/-- The per-instance state of `NoteStabilizer`: the configuration captured
by `update_config` plus the mutable per-session fields set by `reset`. -/
structure StabState where
  yin_threshold : ℚ
  subharmonic_ratio : ℚ
  octave_lookback_ratio : ℚ
  nearest_window : ℚ
  maxlen : ℕ
  last_stable_freq : ℚ
  prev_amplitude : ℚ
  frames_since_attack : ℕ
  consecutive_decay_frames : ℕ
  last_valid_cents : ℝ
  cents_history : List ℝ

/-- `NoteStabilizer.reset`: zero every per-session field and clear the
cents deque (the configuration fields stay). -/
def stabReset (st : StabState) : StabState :=
  { st with last_stable_freq := 0, prev_amplitude := 0, frames_since_attack := 0,
            consecutive_decay_frames := 0, last_valid_cents := 0, cents_history := [] }

/-- `NoteStabilizer.process`: attack/decay classification, the silence
branch, and the jump-guard, returning the updated state together with
`(stabilized_freq, is_valid_signal)`. -/
def stabProcess (st : StabState) (raw_freq confidence amplitude threshold_rms : ℚ) :
    StabState × ℚ × Bool :=
  let threshold_val := max threshold_rms 1 * 10
  let step :=
    if st.prev_amplitude * (12 / 10) < amplitude then
      (if threshold_val < amplitude then (true, 0, 0)
       else (false, st.frames_since_attack, st.consecutive_decay_frames))
    else if amplitude < st.prev_amplitude then
      (false, st.frames_since_attack, st.consecutive_decay_frames + 1)
    else (false, st.frames_since_attack, st.consecutive_decay_frames)
  let is_attack : Bool := step.1
  let fsa := if is_attack then step.2.1 else step.2.1 + 1
  let cdf := step.2.2
  let st1 := { st with prev_amplitude := amplitude, frames_since_attack := fsa,
                       consecutive_decay_frames := cdf }
  if amplitude < threshold_val then
    ({ st1 with last_stable_freq := 0, cents_history := [], last_valid_cents := 0 }, 0, false)
  else if 0 < raw_freq then
    let newLsf :=
      if 0 < st.last_stable_freq then
        let ratio := raw_freq / st.last_stable_freq
        let is_same := (94 / 100 : ℚ) < ratio ∧ ratio < 106 / 100
        if is_attack then
          (if confidence < st.yin_threshold then raw_freq else st.last_stable_freq)
        else if 5 < cdf then
          (if is_same then
             (if confidence < st.yin_threshold then raw_freq else st.last_stable_freq)
           else st.last_stable_freq)
        else
          (if confidence < st.yin_threshold then
             (if is_same ∨ confidence < 1 / 10 then raw_freq else st.last_stable_freq)
           else st.last_stable_freq)
      else if confidence < st.yin_threshold then raw_freq else 0
    ({ st1 with last_stable_freq := newLsf }, newLsf, decide (0 < newLsf))
  else (st1, 0, false)

/-- A stabilizer state locked on 110 Hz, six frames into decay. -/
def lockedStab : StabState :=
  { yin_threshold := 1 / 5, subharmonic_ratio := 9 / 10, octave_lookback_ratio := 4 / 5,
    nearest_window := 300, maxlen := 5, last_stable_freq := 110, prev_amplitude := 100,
    frames_since_attack := 9, consecutive_decay_frames := 6, last_valid_cents := 7,
    cents_history := [] }

/-- A stabilizer state three frames into decay with nonzero envelope
history, used to probe the silence branch. -/
def decayStab : StabState :=
  { lockedStab with prev_amplitude := 50, consecutive_decay_frames := 3,
                    frames_since_attack := 4 }

/-! ### Fusion rule of `PitchAnalyzer.process` (src/pitch_analyzer.py, step 3) -/

/-- The band-merge logic: validate each band by `conf < threshold` and
`freq > 0`, then fuse by the crossover rules. -/
def fuse (threshold fL cL fH cH : ℚ) : ℚ × ℚ :=
  let vL := cL < threshold ∧ 0 < fL
  let vH := cH < threshold ∧ 0 < fH
  if vL ∧ vH then
    if 350 < fH then (fH, cH)
    else if fL < 150 then (fL, cL)
    else if cH ≤ cL then (fH, cH) else (fL, cL)
  else if vH then (fH, cH)
  else if vL then (fL, cL)
  else (0, 1)

/-! ### Frequency-to-note matching (src/pitch_analyzer.py, `_match_frequency`)

The code builds display strings like `"A4\n(OK: +1.2)"`; the embedded
result keeps the branch structure (which classification fired, for which
matched label) and drops only the float formatting. -/

/-- The classification produced by `_match_frequency`:
`noMatch` = `"---"`, `onPitch` = the `"OK"` label, `sharp`/`flat` the
within-±50 direction labels, `tooSharp`/`tooFlat` the beyond-±50 labels
(matched name retained, suffixed `?` in the display string). -/
inductive MatchVerdict where
  | noMatch
  | onPitch (name : String)
  | sharp (name : String)
  | flat (name : String)
  | tooSharp (name : String)
  | tooFlat (name : String)
deriving DecidableEq

/-- `diff_cents = 1200 * math.log2(freq / base_freq)`. -/
noncomputable def centsOf (freq base : ℝ) : ℝ := 1200 * Real.logb 2 (freq / base)

/-- The `for name, base_freq in self.target_frequencies.items()` loop:
`min_diff_cents` starts at infinity (modelled by the `none` accumulator,
which any finite value beats), updates on strictly smaller `|cents|`
(first-encountered tie-breaking), and skips entries whose ratio is not
positive (the caught `ValueError` of `math.log2`). -/
noncomputable def matchLoop (freq : ℝ) :
    List (String × ℝ) → Option (String × ℝ) → Option (String × ℝ)
  | [], acc => acc
  | p :: rest, acc =>
      if freq / p.2 ≤ 0 then matchLoop freq rest acc
      else
        let diff := centsOf freq p.2
        match acc with
        | none => matchLoop freq rest (some (p.1, diff))
        | some bd =>
            if |diff| < |bd.2| then matchLoop freq rest (some (p.1, diff))
            else matchLoop freq rest (some bd)

/-- `PitchAnalyzer._match_frequency`: nearest-target selection, the
`nearest_note_window` cut-off, and the cents classification. -/
noncomputable def matchFrequency (window : ℝ) (targets : List (String × ℝ)) (freq : ℝ) :
    MatchVerdict × ℝ :=
  if freq = 0 then (MatchVerdict.noMatch, 0)
  else
    match matchLoop freq targets none with
    | none => (MatchVerdict.noMatch, 0)
    | some bd =>
        if window < |bd.2| then (MatchVerdict.noMatch, 0)
        else if |bd.2| ≤ 50 then
          (if |bd.2| < 5 then (MatchVerdict.onPitch bd.1, bd.2)
           else if 0 < bd.2 then (MatchVerdict.sharp bd.1, bd.2)
           else (MatchVerdict.flat bd.1, bd.2))
        else if 0 < bd.2 then (MatchVerdict.tooSharp bd.1, bd.2)
        else (MatchVerdict.tooFlat bd.1, bd.2)

/-- A two-string tuning target set. -/
noncomputable def demoTargets : List (String × ℝ) := [(("E2"), 82), (("A4"), 440)]

/-! ### Settings records (`config` dictionaries) -/

/-- A Python settings value: string, number, or boolean. -/
inductive SVal where
  | s (v : String)
  | q (v : ℚ)
  | b (v : Bool)
deriving DecidableEq

/-- A settings dictionary; only lookup semantics matter, and `List.lookup`
returns the first binding of a key. -/
abbrev Settings := List (String × SVal)

/-- `settings.get(k)`. -/
def getS (cfg : Settings) (k : String) : Option SVal := List.lookup k cfg

/-- `float(settings.get(k, dflt))` for numeric entries. -/
def getQ (cfg : Settings) (k : String) (dflt : ℚ) : ℚ :=
  match getS cfg k with
  | some (SVal.q v) => v
  | _ => dflt

/-- `settings.get(k, dflt)` for string entries. -/
def getStr (cfg : Settings) (k : String) (dflt : String) : String :=
  match getS cfg k with
  | some (SVal.s v) => v
  | _ => dflt

/-- The `high_quality` parse: `(str(hq_val).lower() == "true") if
isinstance(hq_val, (str, bool)) else False`. -/
def getBoolish (cfg : Settings) (k : String) : Bool :=
  match getS cfg k with
  | some (SVal.b v) => v
  | some (SVal.s v) => v.toLower == ("true")
  | _ => false

/-- `max(1, min(10, int(config.get("smoothing", 5))))` (the clamp makes
floor and toward-zero truncation agree). -/
def getSmoothing (cfg : Settings) : ℕ :=
  max 1 (min 10 (Int.toNat ⌊getQ cfg ("smoothing") 5⌋))

/-- `self.settings.update(new_config)`: later bindings shadow earlier
ones, so the merged dictionary looks up `new` first. -/
def mergeS (old new : Settings) : Settings := new ++ old

/-- `NoteStabilizer.update_config`: refresh the thresholds and rebuild
the cents deque (which empties it) with the clamped smoothing length. -/
def stabUpdateConfig (cfg : Settings) (st : StabState) : StabState :=
  { st with yin_threshold := getQ cfg ("yin_threshold") (1 / 5),
            subharmonic_ratio := getQ cfg ("subharmonic_confidence_ratio") (9 / 10),
            octave_lookback_ratio := getQ cfg ("octave_lookback_ratio") (4 / 5),
            nearest_window := getQ cfg ("nearest_note_window") 300,
            maxlen := getSmoothing cfg,
            cents_history := [] }

/-! ### Cents smoothing (`NoteStabilizer.smooth_cents`) -/

/-- `statistics.median`: middle of the sorted list, or the mean of the
two middle entries for even length. -/
noncomputable def medianList (xs : List ℝ) : ℝ :=
  let sorted := List.insertionSort (fun a b : ℝ => a ≤ b) xs
  let n := sorted.length
  if n % 2 = 1 then sorted.getD (n / 2) 0
  else (sorted.getD (n / 2 - 1) 0 + sorted.getD (n / 2) 0) / 2

/-- `deque(maxlen=m).append(v)`: append on the right, dropping from the
left when full. -/
def dequeAppend (maxlen : ℕ) (xs : List ℝ) (v : ℝ) : List ℝ :=
  let ys := xs ++ [v]
  if maxlen < ys.length then ys.drop (ys.length - maxlen) else ys

/-- `NoteStabilizer.smooth_cents`. -/
noncomputable def smoothCents (st : StabState) (c : ℝ) : StabState × ℝ :=
  let hist := dequeAppend st.maxlen st.cents_history c
  let val := medianList hist
  ({ st with cents_history := hist, last_valid_cents := val }, val)

/-! ### `PitchAnalyzer.process`, steps 4-5 (stabilization, matching, and
the hold-over fallback), with the band-merge outputs as inputs. -/

/-- Steps 4-5 of `PitchAnalyzer.process`: run the stabilizer, match a
valid stabilized frequency (smoothing the cents), and otherwise fall back
to the last recorded cents value when the frame is loud enough, matching
`440 * 2^(cents/1200)` for the display label. -/
noncomputable def processOutput (settings : Settings) (targets : List (String × ℝ))
    (st : StabState) (raw_freq confidence rms_amplitude : ℚ) :
    StabState × MatchVerdict × Option ℝ :=
  let threshold_rms := getQ settings ("threshold") 10
  let res := stabProcess st raw_freq confidence rms_amplitude threshold_rms
  let st1 := res.1
  let stable_freq := res.2.1
  let is_valid := res.2.2
  let window : ℝ := (getQ settings ("nearest_note_window") 300 : ℚ)
  if is_valid = true ∧ 0 < stable_freq then
    let m := matchFrequency window targets (stable_freq : ℝ)
    if m.1 ≠ MatchVerdict.noMatch then
      let sm := smoothCents st1 m.2
      (sm.1, m.1, some sm.2)
    else (st1, MatchVerdict.noMatch, none)
  else
    if st1.last_valid_cents ≠ 0 ∧ (threshold_rms * 10 : ℚ) < rms_amplitude then
      let fc := st1.last_valid_cents
      let base440 : ℝ := 440 * (2 : ℝ) ^ (fc / 1200)
      let m := matchFrequency window targets base440
      if m.1 ≠ MatchVerdict.noMatch then (st1, m.1, some fc)
      else (st1, MatchVerdict.noMatch, some fc)
    else (st1, MatchVerdict.noMatch, none)

/-- Settings used by the step 4-5 demo: an RMS threshold of 0.5. -/
def demoSettings : Settings := [(("threshold"), SVal.q (1 / 2))]

/-! ### `PitchAnalyzer` configuration handling (src/pitch_analyzer.py) -/

/-- The mutable state of `PitchAnalyzer` relevant to configuration:
settings, per-band decimation factors, buffer half-lengths (`np.zeros(size*2)`
allocations are modelled as an index function plus the recorded size),
pointers, decimation remainders, the two `YinProcessor` constructions, and
the stabilizer. -/
structure AnalyzerState where
  settings : Settings
  decLow : ℕ
  decHigh : ℕ
  sizeLow : ℕ
  sizeHigh : ℕ
  bufLow : ℕ → ℚ
  ptrLow : ℕ
  remLow : List ℚ
  bufHigh : ℕ → ℚ
  ptrHigh : ℕ
  remHigh : List ℚ
  procLow : Option YinProc
  procHigh : Option YinProc
  stab : StabState

/-- The per-instrument band setup of `apply_settings`:
`(dec_low, dec_high, low_range, high_range)`. -/
def bandConfig (cfg : Settings) : ℕ × ℕ × (ℚ × ℚ) × (ℚ × ℚ) :=
  let instr := (getStr cfg ("instrument_type") ("guitar")).toLower
  let hq := getBoolish cfg ("high_quality")
  if instr == ("bass") then (10, if hq then 2 else 4, (20, 300), (100, 600))
  else (8, if hq then 1 else 2, (30, 400), (200, 1200))

/-- `base_samples = {"fast": 8192, "stable": 32768}.get(mode, 16384)`. -/
def baseSamples (cfg : Settings) : ℕ :=
  let mode := (getStr cfg ("latency_mode") ("normal")).toLower
  if mode == ("fast") then 8192 else if mode == ("stable") then 32768 else 16384

/-- The low-band `YinProcessor(sample_rate=RATE/dec_low, ...)` arguments. -/
def lowProcOf (cfg : Settings) : YinProc :=
  ⟨44100 / ((bandConfig cfg).1 : ℚ), (bandConfig cfg).2.2.1.1, (bandConfig cfg).2.2.1.2,
    getQ cfg ("yin_threshold") (1 / 5)⟩

/-- The high-band `YinProcessor(sample_rate=RATE/dec_high, ...)` arguments. -/
def highProcOf (cfg : Settings) : YinProc :=
  ⟨44100 / ((bandConfig cfg).2.1 : ℚ), (bandConfig cfg).2.2.2.1, (bandConfig cfg).2.2.2.2,
    getQ cfg ("yin_threshold") (1 / 5)⟩

/-- `PitchAnalyzer.apply_settings`: a no-op unless `full_reset`, otherwise
recompute the band setup, reallocate both double buffers as zeros
(`size = int(base_samples / dec)`), clear pointers and remainders, rebuild
both `YinProcessor`s and reset the stabilizer. -/
def applySettings (fullReset : Bool) (st : AnalyzerState) : AnalyzerState :=
  if fullReset = false then st
  else
    { st with
      decLow := (bandConfig st.settings).1,
      decHigh := (bandConfig st.settings).2.1,
      sizeLow := baseSamples st.settings / (bandConfig st.settings).1,
      sizeHigh := baseSamples st.settings / (bandConfig st.settings).2.1,
      bufLow := fun _ => 0, ptrLow := 0, remLow := [],
      bufHigh := fun _ => 0, ptrHigh := 0, remHigh := [],
      procLow := some (lowProcOf st.settings),
      procHigh := some (highProcOf st.settings),
      stab := stabReset st.stab }

/-- `restart_required_keys` of `update_settings`. -/
def restartKeys : List String := [("latency_mode"), ("instrument_type"), ("high_quality")]

/-- `PitchAnalyzer.update_settings`: decide the restart, merge the partial
configuration, push it into the stabilizer, then `apply_settings` with
`full_reset = needs_restart`; returns whether a restart occurred. -/
def updateSettings (st : AnalyzerState) (newCfg : Settings) : Bool × AnalyzerState :=
  let needsRestart := restartKeys.any fun k => (getS newCfg k).isSome
  let merged := mergeS st.settings newCfg
  let st1 := { st with settings := merged, stab := stabUpdateConfig merged st.stab }
  (needsRestart, applySettings needsRestart st1)

/-- A concrete analyzer state for the configuration demos. -/
def demoAnalyzer : AnalyzerState :=
  { settings := [(("yin_threshold"), SVal.q (1 / 5))], decLow := 8, decHigh := 2,
    sizeLow := 2048, sizeHigh := 8192, bufLow := fun _ => 0, ptrLow := 0, remLow := [],
    bufHigh := fun _ => 0, ptrHigh := 0, remHigh := [], procLow := none, procHigh := none,
    stab := lockedStab }

/-! ### The decimating double buffer (`PitchAnalyzer._update_buffer`) -/

/-- The analysis window `buffer[ptr : ptr + N]` of a double buffer of
length `2N`, as a list. -/
def window (buf : ℕ → ℚ) (ptr N : ℕ) : List ℚ := (List.range N).map fun i => buf (ptr + i)

/-- The slice assignment `buffer[start : start + len(data)] = data`. -/
def writeSeg (buf : ℕ → ℚ) (start : ℕ) (data : List ℚ) : ℕ → ℚ :=
  fun i => if start ≤ i ∧ i < start + data.length then data.getD (i - start) 0 else buf i

/-- `np.mean` of a chunk. -/
def listMean (xs : List ℚ) : ℚ := xs.sum / (xs.length : ℚ)

/-- `combined[:num_blocks*D].reshape(-1, D).mean(axis=1)`: the full
`D`-blocks averaged, partial tails ignored. -/
def decimateChunks (D : ℕ) (xs : List ℚ) : List ℚ :=
  (List.range (xs.length / D)).map fun k => listMean ((xs.drop (k * D)).take D)

/-- One band's buffer state: the double buffer (an index function; the
allocation length `2N` is a parameter of the operations), the write
pointer, and the undecimated remainder. -/
structure BandState where
  buf : ℕ → ℚ
  ptr : ℕ
  rem : List ℚ

/-- The mirrored double write of `_update_buffer`: the no-wrap branch
writes `decimated` at `ptr` and `ptr + N`; the wrap branch writes
`chunk1` up to `N` (and mirrored), then `chunk2` from 0 (and mirrored).
Returns the new buffer and the new pointer. -/
def doubleWrite (N : ℕ) (buf : ℕ → ℚ) (ptr : ℕ) (dec : List ℚ) : (ℕ → ℚ) × ℕ :=
  let n := dec.length
  let remainSpace := N - ptr
  if n ≤ remainSpace then
    (writeSeg (writeSeg buf ptr dec) (ptr + N) dec, (ptr + n) % N)
  else
    let chunk1 := dec.take remainSpace
    let chunk2 := dec.drop remainSpace
    let b1 := writeSeg (writeSeg buf ptr chunk1) (ptr + N) chunk1
    let b2 := writeSeg (writeSeg b1 0 chunk2) N chunk2
    (b2, chunk2.length)

/-- `PitchAnalyzer._update_buffer`: combine the remainder with the new
samples, decimate the full blocks by averaging, keep at most the last `N`
decimated samples, write them into the double buffer, and return the
window at the new pointer together with the new state. -/
def updateBuffer (N D : ℕ) (st : BandState) (newData : List ℚ) : List ℚ × BandState :=
  let combined := st.rem ++ newData
  let numBlocks := combined.length / D
  if 0 < numBlocks then
    let processLen := numBlocks * D
    let toProcess := combined.take processLen
    let newRem := combined.drop processLen
    let dec0 := decimateChunks D toProcess
    let dec := if N < dec0.length then dec0.drop (dec0.length - N) else dec0
    let wr := doubleWrite N st.buf st.ptr dec
    (window wr.1 wr.2 N, ⟨wr.1, wr.2, newRem⟩)
  else
    (window st.buf st.ptr N, ⟨st.buf, st.ptr, combined⟩)

/-- The session-start state: a zero-filled buffer, pointer 0, empty
remainder. -/
def initBand : BandState := ⟨fun _ => 0, 0, []⟩

/-- A whole session: fold `_update_buffer` over the captured inputs. -/
def runSession (N D : ℕ) (inputs : List (List ℚ)) : BandState :=
  inputs.foldl (fun st nd => (updateBuffer N D st nd).2) initBand

/-- The last `N` elements of a list (all of it when shorter). -/
def lastN (N : ℕ) (xs : List ℚ) : List ℚ := xs.drop (xs.length - N)

/-! ### Lemmas: the FFT-accelerated difference function -/

theorem cumSq_eq (x : ℕ → ℚ) (n : ℕ) : cumSq x n = ∑ i in Finset.range n, x i ^ 2 := by
  induction n with
  | zero => simp [cumSq]
  | succ n ih => rw [cumSq, ih, Finset.sum_range_succ]

theorem term2_eq (x : ℕ → ℚ) (half tau : ℕ) :
    term2 x half tau = ∑ j in Finset.range half, x (j + tau) ^ 2 := by
  rw [term2, cumSq_eq, cumSq_eq, ← Finset.sum_Ico_eq_sub _ (Nat.le_add_right tau half)]
  rw [Finset.sum_Ico_eq_sum_range]
  simp only [Nat.add_sub_cancel_left]
  exact Finset.sum_congr rfl fun j _ => by rw [Nat.add_comm tau j]

theorem nextPow2Go_ge (m : ℕ) : ∀ fuel acc, m ≤ acc * 2 ^ fuel → m ≤ nextPow2Go m fuel acc := by
  intro fuel
  induction fuel with
  | zero => intro acc h; simpa [nextPow2Go] using h
  | succ fuel ih =>
      intro acc h
      rw [nextPow2Go]
      by_cases hlt : acc < m
      · rw [if_pos hlt]
        exact ih (acc * 2) (by rw [Nat.mul_assoc]; rw [pow_succ] at h; linarith [h])
      · rw [if_neg hlt]; omega

theorem le_nextPow2 (m : ℕ) : m ≤ nextPow2 m := by
  refine nextPow2Go_ge m m 1 ?_
  rw [Nat.one_mul]
  exact Nat.le_of_lt (Nat.lt_two_pow m)

theorem corrAt_eq (x : ℕ → ℚ) (L half nfft tau : ℕ)
    (hhalf : 1 ≤ half) (hk : half - 1 + tau < L) (hn : L + half ≤ nfft) :
    corrAt x L half nfft tau = ∑ j in Finset.range half, x j * x (j + tau) := by
  have hhn : half ≤ nfft := le_trans (Nat.le_add_left half L) hn
  rw [corrAt, cyclicConv]
  rw [← Finset.sum_subset (Finset.range_subset.mpr hhn)
      (fun i _ hi => by
        have : ¬ i < half := by simpa using hi
        simp [zeroPad, this])]
  have hstep : ∀ i ∈ Finset.range half,
      zeroPad half (fun i => x (half - 1 - i)) i *
        zeroPad L x ((half - 1 + tau + nfft - i) % nfft) =
      x (half - 1 - i) * x ((half - 1 - i) + tau) := by
    intro i hi
    have hi' : i < half := Finset.mem_range.mp hi
    have hik : i ≤ half - 1 + tau := by omega
    have hmod : (half - 1 + tau + nfft - i) % nfft = half - 1 + tau - i := by
      have h1 : half - 1 + tau + nfft - i = (half - 1 + tau - i) + nfft := by omega
      rw [h1, Nat.add_mod_right]
      exact Nat.mod_eq_of_lt (by omega)
    rw [hmod]
    have hidx : half - 1 + tau - i = (half - 1 - i) + tau := by omega
    have hin : half - 1 - i + tau < L := by omega
    simp [zeroPad, hi', hidx, hin]
  rw [Finset.sum_congr rfl hstep]
  have := Finset.sum_range_reflect (fun j => x j * x (j + tau)) half
  calc ∑ i in Finset.range half, x (half - 1 - i) * x ((half - 1 - i) + tau)
      = ∑ j in Finset.range half, x j * x (j + tau) := this

/-- Shared refinement lemma: the clipped FFT-convolution difference
function of `YinProcessor.process` equals the legacy naive loop's
`d(tau) = sum_{j < half} (x[j] - x[j+tau])^2` under exact arithmetic. -/
theorem diffFun_eq_naiveDiff (x : ℕ → ℚ) (L half nfft tau : ℕ)
    (hhalf : 1 ≤ half) (hk : half - 1 + tau < L) (hn : L + half ≤ nfft) :
    diffFun x L half nfft tau = naiveDiff x half tau := by
  have hexp : naiveDiff x half tau =
      term1 x half + term2 x half tau - 2 * corrAt x L half nfft tau := by
    rw [naiveDiff, term1, term2_eq, corrAt_eq x L half nfft tau hhalf hk hn]
    rw [Finset.mul_sum, ← Finset.sum_add_distrib, ← Finset.sum_sub_distrib]
    exact Finset.sum_congr rfl fun j _ => by ring
  have hnn : 0 ≤ naiveDiff x half tau :=
    Finset.sum_nonneg fun j _ => sq_nonneg _
  rw [diffFun, ← hexp, max_eq_left hnn]

/-- C1: for every input signal of length `L ≥ max_period + half_chunk`
(with `half_chunk = L / 2` a nonempty template) and every lag
`tau < max_period`, the difference function computed in
`YinProcessor.process` via the cumulative-sum and zero-padded
FFT-convolution route (`term1 + term2 - 2*term3`, clipped at 0, FFT size
the next power of two of `signal_len + half_chunk`) equals the direct
squared-difference definition `d(tau) = sum_{j<half_chunk} (x[j]-x[j+tau])^2`
of the naive loop in the legacy detector, under exact arithmetic. -/
theorem C1_fft_difference_equals_naive (x : ℕ → ℚ) (L maxP tau : ℕ)
    (hhalf : 1 ≤ L / 2) (hlen : maxP + L / 2 ≤ L) (htau : tau < maxP) :
    diffFun x L (L / 2) (nextPow2 (L + L / 2)) tau = naiveDiff x (L / 2) tau := by
  apply diffFun_eq_naiveDiff
  · exact hhalf
  · omega
  · exact le_nextPow2 _

/-- C1 witness: the equivalence instantiated at the concrete 8-sample
signal, `max_period = 4`, lag 2. -/
theorem C1_fft_difference_equals_naive_witness :
    (1 ≤ 8 / 2 ∧ 4 + 8 / 2 ≤ 8 ∧ 2 < 4) ∧
      diffFun demoSignalFun 8 (8 / 2) (nextPow2 (8 + 8 / 2)) 2 =
        naiveDiff demoSignalFun (8 / 2) 2 :=
  ⟨by norm_num,
   C1_fft_difference_equals_naive demoSignalFun 8 4 2 (by norm_num) (by norm_num)
     (by norm_num)⟩

/-! ### Evaluating `yinProcess` on an all-zero signal (claim C5) -/

theorem zeroSignal_fun_eq : (fun i => zeroSignal.getD i 0) = fun _ => (0 : ℚ) := by
  funext i
  rcases Nat.lt_or_ge i 8 with h | h
  · interval_cases i <;> simp [zeroSignal]
  · rw [List.getD_eq_default]
    simp [zeroSignal]
    omega

theorem diffFun_zero : ∀ nf tau, diffFun (fun _ => (0 : ℚ)) 8 4 nf tau = 0 := by
  intro nf tau
  norm_num [diffFun, term1, term2, corrAt, cyclicConv, zeroPad, cumSq_eq]

theorem cmndf_zero : ∀ tau, cmndf (diffFun (fun _ => (0 : ℚ)) 8 4 (nextPow2 12)) tau
    = if tau = 0 then 1 else 0 := by
  intro tau
  rcases Nat.eq_zero_or_pos tau with h | h
  · simp [h, cmndf]
  · have htau : tau ≠ 0 := by omega
    simp [cmndf, cumDiff, htau, diffFun_zero]

theorem yinCore_zero :
    yinCore 2 4 (1 / 5) (cmndf (diffFun (fun _ => (0 : ℚ)) 8 4 (nextPow2 12))) = some 2 := by
  norm_num [yinCore, findCrossing, List.range', walkDown, cmndf_zero]

theorem harmonicRun_zero :
    harmonicRun (cmndf (diffFun (fun _ => (0 : ℚ)) 8 4 (nextPow2 12))) 2 4 2 = 2 := by
  norm_num [harmonicRun, harmonicLoop, harmonicStep]

theorem interpPeriod_zero :
    interpPeriod (cmndf (diffFun (fun _ => (0 : ℚ)) 8 4 (nextPow2 12))) 4 2 = 2 := by
  norm_num [interpPeriod, cmndf_zero]

set_option maxHeartbeats 1000000 in
/-- C5 (failing-input exhibit): on an all-zero signal of sufficient length
the Periodicity Estimator does NOT return the not-found sentinel
`(0.0, 1.0)`: the cumulative-mean normalization divides `0/0` for every
lag (numpy yields NaN there, the exact model yields 0), the global-minimum
guard fails to trigger, and the estimator reports the spurious frequency
`sample_rate / min_period = 10 / 2 = 5` (the short-signal half of the
claim does hold, see the length check at the top of `yinProcess`). -/
theorem C5_all_zero_not_sentinel :
    yinProcess zeroDemoProc zeroSignal = some (5, 0) ∧
      yinProcess zeroDemoProc zeroSignal ≠ some (0, 1) := by
  have hmin : zeroDemoProc.minPeriod = 2 := by
    norm_num [YinProc.minPeriod, zeroDemoProc]
    decide
  have hmax : zeroDemoProc.maxPeriod = 4 := by
    norm_num [YinProc.maxPeriod, zeroDemoProc]
    decide
  have hlen : zeroSignal.length = 8 := by norm_num [zeroSignal]
  have hrate : zeroDemoProc.sample_rate = 10 := rfl
  have hthr : zeroDemoProc.threshold = 1 / 5 := rfl
  have heval : yinProcess zeroDemoProc zeroSignal = some (5, 0) := by
    simp only [yinProcess, hmin, hmax, hlen, hrate, hthr, zeroSignal_fun_eq]
    norm_num [yinFinish, yinCore_zero, harmonicRun_zero, interpPeriod_zero, cmndf_zero]
  refine ⟨heval, ?_⟩
  rw [heval]
  intro hcontra
  rw [Option.some.injEq, Prod.mk.injEq] at hcontra
  norm_num at hcontra

/-! ### Evaluating `yinProcess` on the 8-sample demo signal (claim C9) -/

theorem demo_d0 : diffFun demoSignalFun 8 4 (nextPow2 12) 0 = 0 := by
  rw [diffFun_eq_naiveDiff demoSignalFun 8 4 (nextPow2 12) 0 (by norm_num) (by norm_num)
    (le_nextPow2 12)]
  norm_num [naiveDiff, Finset.sum_range_succ, demoSignalFun, demoSignal]

theorem demo_d1 : diffFun demoSignalFun 8 4 (nextPow2 12) 1 = 2 := by
  rw [diffFun_eq_naiveDiff demoSignalFun 8 4 (nextPow2 12) 1 (by norm_num) (by norm_num)
    (le_nextPow2 12)]
  norm_num [naiveDiff, Finset.sum_range_succ, demoSignalFun, demoSignal]

theorem demo_d2 : diffFun demoSignalFun 8 4 (nextPow2 12) 2 = 4 := by
  rw [diffFun_eq_naiveDiff demoSignalFun 8 4 (nextPow2 12) 2 (by norm_num) (by norm_num)
    (le_nextPow2 12)]
  norm_num [naiveDiff, Finset.sum_range_succ, demoSignalFun, demoSignal]

theorem demo_d3 : diffFun demoSignalFun 8 4 (nextPow2 12) 3 = 66 := by
  rw [diffFun_eq_naiveDiff demoSignalFun 8 4 (nextPow2 12) 3 (by norm_num) (by norm_num)
    (le_nextPow2 12)]
  norm_num [naiveDiff, Finset.sum_range_succ, demoSignalFun, demoSignal]

theorem demo_cm0 : cmndf (diffFun demoSignalFun 8 4 (nextPow2 12)) 0 = 1 := by
  simp [cmndf]

theorem demo_cm1 : cmndf (diffFun demoSignalFun 8 4 (nextPow2 12)) 1 = 1 := by
  norm_num [cmndf, cumDiff, Finset.sum_range_succ, demo_d0, demo_d1]

theorem demo_cm2 : cmndf (diffFun demoSignalFun 8 4 (nextPow2 12)) 2 = 4 / 3 := by
  norm_num [cmndf, cumDiff, Finset.sum_range_succ, demo_d0, demo_d1, demo_d2]

theorem demo_cm3 : cmndf (diffFun demoSignalFun 8 4 (nextPow2 12)) 3 = 11 / 4 := by
  norm_num [cmndf, cumDiff, Finset.sum_range_succ, demo_d0, demo_d1, demo_d2, demo_d3]

/-! ### Confidence-range lemmas for `yinProcess` (claim C9) -/

theorem diffFun_nonneg (x : ℕ → ℚ) (L half nfft tau : ℕ) : 0 ≤ diffFun x L half nfft tau :=
  le_max_right _ 0

theorem cumDiff_nonneg (d : ℕ → ℚ) (hd : ∀ i, 0 ≤ d i) (tau : ℕ) : 0 ≤ cumDiff d tau := by
  rw [cumDiff]
  split
  · norm_num
  · exact Finset.sum_nonneg fun i _ => hd i

theorem cmndf_nonneg (d : ℕ → ℚ) (hd : ∀ i, 0 ≤ d i) (tau : ℕ) : 0 ≤ cmndf d tau := by
  rw [cmndf]
  split
  · norm_num
  · exact div_nonneg (mul_nonneg (hd tau) (Nat.cast_nonneg tau)) (cumDiff_nonneg d hd tau)

theorem findCrossing_lt (cm : ℕ → ℚ) (thr : ℚ) :
    ∀ l t, findCrossing cm thr l = some t → cm t < thr := by
  intro l
  induction l with
  | nil => intro t h; simp [findCrossing] at h
  | cons a l ih =>
      intro t h
      rw [findCrossing] at h
      split_ifs at h with hc
      · cases h; exact hc
      · exact ih t h

theorem walkDown_le (cm : ℕ → ℚ) (maxP : ℕ) :
    ∀ fuel tau, cm (walkDown cm maxP fuel tau) ≤ cm tau := by
  intro fuel
  induction fuel with
  | zero => intro tau; simp [walkDown]
  | succ fuel ih =>
      intro tau
      rw [walkDown]
      split_ifs with hc
      · exact le_trans (ih (tau + 1)) (le_of_lt hc.2)
      · exact le_refl _

theorem yinCore_lt (minP maxP : ℕ) (thr : ℚ) (cm : ℕ → ℚ) (bt : ℕ)
    (h : yinCore minP maxP thr cm = some bt) : cm bt < thr ∨ cm bt < 1 := by
  rw [yinCore] at h
  rcases hf : findCrossing cm thr (List.range' minP (maxP - minP)) with _ | t0
  · rw [hf] at h
    dsimp only at h
    split_ifs at h with h1 h2
    · cases h
      exact Or.inr (lt_of_not_le h2)
  · rw [hf] at h
    cases h
    exact Or.inl (lt_of_le_of_lt (walkDown_le cm maxP maxP t0) (findCrossing_lt cm thr _ t0 hf))

theorem harmonicStep_cases (cm : ℕ → ℚ) (minP maxP bt : ℕ) (cv : ℚ) (hh : ℕ) :
    (harmonicStep cm minP maxP bt cv hh).2 = (bt, cv) ∨
      ((harmonicStep cm minP maxP bt cv hh).2.2 = cm (harmonicStep cm minP maxP bt cv hh).2.1 ∧
        (harmonicStep cm minP maxP bt cv hh).2.2 < 7 / 20) := by
  simp only [harmonicStep]
  split_ifs with h1 h2 h3
  · exact Or.inl rfl
  · exact Or.inl rfl
  · exact Or.inr ⟨rfl, h3.1⟩
  · exact Or.inl rfl

theorem harmonicLoop_inv (cm : ℕ → ℚ) (minP maxP : ℕ) :
    ∀ hs bt cv, cv = cm bt →
      (harmonicLoop cm minP maxP hs (bt, cv)).2 = cm (harmonicLoop cm minP maxP hs (bt, cv)).1 ∧
        ((harmonicLoop cm minP maxP hs (bt, cv)).2 ≤ cv ∨
          (harmonicLoop cm minP maxP hs (bt, cv)).2 < 7 / 20) := by
  intro hs
  induction hs with
  | nil => intro bt cv hcv; exact ⟨hcv, Or.inl (le_refl _)⟩
  | cons hh rest ih =>
      intro bt cv hcv
      rw [harmonicLoop]
      rcases harmonicStep_cases cm minP maxP bt cv hh with hcase | hcase
      · rw [hcase]
        by_cases hb : (harmonicStep cm minP maxP bt cv hh).1 = true
        · rw [if_pos hb]
          exact ⟨hcv, Or.inl (le_refl _)⟩
        · rw [if_neg hb]
          exact ih bt cv hcv
      · by_cases hb : (harmonicStep cm minP maxP bt cv hh).1 = true
        · rw [if_pos hb]
          exact ⟨hcase.1, Or.inr hcase.2⟩
        · rw [if_neg hb]
          have hres := ih (harmonicStep cm minP maxP bt cv hh).2.1
            (harmonicStep cm minP maxP bt cv hh).2.2 hcase.1
          rw [Prod.mk.eta] at hres
          refine ⟨hres.1, Or.inr ?_⟩
          rcases hres.2 with hle | hlt
          · exact lt_of_le_of_lt hle hcase.2
          · exact hlt

theorem harmonicRun_lt (cm : ℕ → ℚ) (minP maxP bt1 : ℕ) (h1 : cm bt1 < 1) :
    cm (harmonicRun cm minP maxP bt1) < 1 := by
  have hres := harmonicLoop_inv cm minP maxP [2, 3, 4] bt1 (cm bt1) rfl
  rw [harmonicRun, ← hres.1]
  rcases hres.2 with hle | hlt
  · exact lt_of_le_of_lt hle h1
  · exact lt_trans hlt (by norm_num)

theorem yinFinish_conf (rate : ℚ) (minP maxP : ℕ) (cm : ℕ → ℚ) (bt1 : ℕ)
    (hrate : 0 < rate) (hnn : ∀ t, 0 ≤ cm t) (hlt : cm bt1 < 1) (f c : ℚ)
    (h : yinFinish rate minP maxP cm bt1 = some (f, c)) :
    0 ≤ c ∧ c ≤ 1 ∧ (f = 0 → c = 1) := by
  simp only [yinFinish] at h
  by_cases h0 : bt1 = 0
  · rw [if_pos h0] at h
    exact absurd h (by simp)
  · rw [if_neg h0] at h
    set bt := if rate / (bt1 : ℚ) < 250 then harmonicRun cm minP maxP bt1 else bt1 with hbt
    by_cases hp : interpPeriod cm maxP bt = 0
    · rw [if_pos hp] at h
      exact absurd h (by simp)
    · rw [if_neg hp] at h
      rw [Option.some.injEq, Prod.mk.injEq] at h
      have hcbt : cm bt < 1 := by
        rw [hbt]
        split_ifs with h250
        · exact harmonicRun_lt cm minP maxP bt1 hlt
        · exact hlt
      refine ⟨h.2 ▸ hnn _, h.2 ▸ le_of_lt hcbt, fun hf => ?_⟩
      exact absurd (h.1.trans hf) (div_ne_zero (ne_of_gt hrate) hp)

set_option maxHeartbeats 800000 in
/-- C9 counterexample: with the legal configuration `threshold = 1.5`
(nothing bounds `yin_threshold`), the 8-sample demo signal makes
`YinProcessor.process` return confidence `4/3`, which is outside `[0, 1]`
— refuting the claim that the confidence always lies in `[0, 1]`. -/
theorem C9_confidence_can_exceed_one :
    yinProcess looseProc demoSignal = some (260 / 31, 4 / 3) ∧ ¬((4 : ℚ) / 3 ≤ 1) := by
  have hmin : looseProc.minPeriod = 2 := by
    norm_num [YinProc.minPeriod, looseProc]
    decide
  have hmax : looseProc.maxPeriod = 4 := by
    norm_num [YinProc.maxPeriod, looseProc]
    decide
  have hlen : demoSignal.length = 8 := by norm_num [demoSignal]
  have hrate : looseProc.sample_rate = 10 := rfl
  have hthr : looseProc.threshold = 3 / 2 := rfl
  have hfun : (fun i => demoSignal.getD i 0) = demoSignalFun := rfl
  have hcore : yinCore 2 4 (3 / 2) (cmndf (diffFun demoSignalFun 8 4 (nextPow2 12))) = some 2 := by
    norm_num [yinCore, findCrossing, List.range', walkDown, demo_cm2, demo_cm3]
  have hharm : harmonicRun (cmndf (diffFun demoSignalFun 8 4 (nextPow2 12))) 2 4 2 = 2 := by
    norm_num [harmonicRun, harmonicLoop, harmonicStep]
  have habs : |(13 : ℚ) / 12| = 13 / 12 := abs_of_pos (by norm_num)
  have hinterp : interpPeriod (cmndf (diffFun demoSignalFun 8 4 (nextPow2 12))) 4 2 = 31 / 26 := by
    norm_num [interpPeriod, demo_cm1, demo_cm2, demo_cm3, habs]
  constructor
  · simp only [yinProcess, hmin, hmax, hlen, hrate, hthr, hfun]
    norm_num [yinFinish, hcore, hharm, hinterp, demo_cm2]
  · norm_num

set_option maxHeartbeats 800000 in
theorem tightProc_demo_eval : yinProcess tightProc demoSignal = some (0, 1) := by
  have hmin : tightProc.minPeriod = 2 := by
    norm_num [YinProc.minPeriod, tightProc]
    decide
  have hmax : tightProc.maxPeriod = 4 := by
    norm_num [YinProc.maxPeriod, tightProc]
    decide
  have hlen : demoSignal.length = 8 := by norm_num [demoSignal]
  have hthr : tightProc.threshold = 1 / 5 := rfl
  have hfun : (fun i => demoSignal.getD i 0) = demoSignalFun := rfl
  have hcore : yinCore 2 4 (1 / 5) (cmndf (diffFun demoSignalFun 8 4 (nextPow2 12))) = none := by
    norm_num [yinCore, findCrossing, List.range', argminSlice, demo_cm2, demo_cm3]
  simp only [yinProcess, hmin, hmax, hlen, hthr, hfun]
  norm_num [hcore]

/-- C9 amended: provided the configured absolute threshold is at most 1
(as the default 0.2 is) and the sample rate is positive, every value
`(f, c)` returned by `YinProcessor.process` has confidence `c ∈ [0, 1]`,
and whenever the returned frequency is 0 the confidence is exactly 1
(the not-found sentinel). -/
theorem C9_confidence_in_range (p : YinProc) (signal : List ℚ)
    (hth : p.threshold ≤ 1) (hrate : 0 < p.sample_rate) (f c : ℚ)
    (h : yinProcess p signal = some (f, c)) :
    0 ≤ c ∧ c ≤ 1 ∧ (f = 0 → c = 1) := by
  simp only [yinProcess] at h
  split_ifs at h with hshort
  · rw [Option.some.injEq, Prod.mk.injEq] at h
    obtain ⟨hf, hc⟩ := h
    subst hf
    subst hc
    exact ⟨by norm_num, by norm_num, fun _ => rfl⟩
  · rcases hy : yinCore p.minPeriod p.maxPeriod p.threshold
        (cmndf (diffFun (fun i => signal.getD i 0) signal.length (signal.length / 2)
          (nextPow2 (signal.length + signal.length / 2)))) with _ | bt1
    · rw [hy] at h
      rw [Option.some.injEq, Prod.mk.injEq] at h
      obtain ⟨hf, hc⟩ := h
      subst hf
      subst hc
      exact ⟨by norm_num, by norm_num, fun _ => rfl⟩
    · rw [hy] at h
      have hnn : ∀ t, 0 ≤ cmndf (diffFun (fun i => signal.getD i 0) signal.length
          (signal.length / 2) (nextPow2 (signal.length + signal.length / 2))) t :=
        cmndf_nonneg _ fun i => diffFun_nonneg _ _ _ _ _
      have hlt := (yinCore_lt _ _ _ _ _ hy).elim (fun hx => lt_of_lt_of_le hx hth) id
      exact yinFinish_conf _ _ _ _ _ hrate hnn hlt f c h

/-- C9 witness: the amended statement applied to the demo signal with the
default threshold 0.2, where the estimator reports not-found `(0, 1)`. -/
theorem C9_confidence_in_range_witness :
    (tightProc.threshold ≤ 1 ∧ (0 : ℚ) < tightProc.sample_rate ∧
        yinProcess tightProc demoSignal = some (0, 1)) ∧
      (0 ≤ (1 : ℚ) ∧ (1 : ℚ) ≤ 1 ∧ ((0 : ℚ) = 0 → (1 : ℚ) = 1)) :=
  ⟨⟨by norm_num [tightProc], by norm_num [tightProc], tightProc_demo_eval⟩,
    C9_confidence_in_range tightProc demoSignal (by norm_num [tightProc])
      (by norm_num [tightProc]) 0 1 tightProc_demo_eval⟩

/-! ### NoteStabilizer: jump-guard and silence behaviour (claims C2, C6) -/

/-- C2: in deep decay (`consecutive_decay_frames > 5`), with a stable
frequency held, a frame above the silence floor without an amplitude
spike whose raw frequency has ratio outside `(0.94, 1.06)` leaves
`last_stable_freq` unchanged and is forced back to it; whereas an attack
frame (amplitude above `1.2 ×` the previous amplitude and above the
silence floor) with confidence below the threshold adopts the new raw
frequency and returns it. -/
theorem C2_deep_decay_jump_guard (st : StabState) (R conf A thr : ℚ) :
    (0 < st.last_stable_freq → 5 < st.consecutive_decay_frames →
      max thr 1 * 10 ≤ A → A ≤ st.prev_amplitude * (12 / 10) → 0 < R →
      ¬((94 / 100 : ℚ) < R / st.last_stable_freq ∧ R / st.last_stable_freq < 106 / 100) →
      (stabProcess st R conf A thr).1.last_stable_freq = st.last_stable_freq ∧
        (stabProcess st R conf A thr).2.1 = st.last_stable_freq) ∧
    (0 < st.last_stable_freq → st.prev_amplitude * (12 / 10) < A →
      max thr 1 * 10 < A → conf < st.yin_threshold → 0 < R →
      (stabProcess st R conf A thr).1.last_stable_freq = R ∧
        (stabProcess st R conf A thr).2.1 = R) := by
  constructor
  · intro hlsf hdecay hfloor hnospike hR hratio
    have hnatt : ¬ st.prev_amplitude * (12 / 10) < A := not_lt.mpr hnospike
    have hnsil : ¬ A < max thr 1 * 10 := not_lt.mpr hfloor
    by_cases hdec : A < st.prev_amplitude
    · have h5 : 5 < st.consecutive_decay_frames + 1 := by omega
      simp [stabProcess, hnatt, hnsil, hdec, hR, hlsf, hratio, h5]
    · simp [stabProcess, hnatt, hnsil, hdec, hR, hlsf, hratio, hdecay]
  · intro hlsf hspike hfloor hconf hR
    have hnsil : ¬ A < max thr 1 * 10 := not_lt.mpr (le_of_lt hfloor)
    simp [stabProcess, hspike, hfloor, hnsil, hR, hlsf, hconf]

/-- C2 witness: a 110 Hz lock in deep decay rejects an octave jump to
220 Hz without a spike (amplitude 100 after 100), and accepts it on an
attack (amplitude 130 after 100) with confidence 0.05. -/
theorem C2_deep_decay_jump_guard_witness :
    ((stabProcess lockedStab 220 (1 / 20) 100 1).1.last_stable_freq = 110 ∧
      (stabProcess lockedStab 220 (1 / 20) 100 1).2.1 = 110) ∧
    ((stabProcess lockedStab 220 (1 / 20) 130 1).1.last_stable_freq = 220 ∧
      (stabProcess lockedStab 220 (1 / 20) 130 1).2.1 = 220) := by
  constructor
  · have h := (C2_deep_decay_jump_guard lockedStab 220 (1 / 20) 100 1).1
      (by norm_num [lockedStab]) (by norm_num [lockedStab]) (by norm_num)
      (by norm_num [lockedStab]) (by norm_num) (by norm_num [lockedStab])
    exact ⟨h.1.trans rfl, h.2.trans rfl⟩
  · exact (C2_deep_decay_jump_guard lockedStab 220 (1 / 20) 130 1).2
      (by norm_num [lockedStab]) (by norm_num [lockedStab]) (by norm_num)
      (by norm_num [lockedStab]) (by norm_num)

/-- C6 counterexample: a sub-floor frame (amplitude 5, floor 10) is
reported invalid, but it does NOT clear all of the stabilizer's
per-session state: the decay counter advances from 3 to 4 and the
previous-amplitude envelope is set to the current amplitude 5, whereas
`reset` would zero both. -/
theorem C6_silence_keeps_envelope_state :
    (stabProcess decayStab 0 1 5 1).2 = (0, false) ∧
      (stabProcess decayStab 0 1 5 1).1.consecutive_decay_frames = 4 ∧
      (stabProcess decayStab 0 1 5 1).1.prev_amplitude = 5 ∧
      ¬((stabProcess decayStab 0 1 5 1).1.consecutive_decay_frames = 0 ∧
        (stabProcess decayStab 0 1 5 1).1.prev_amplitude = 0) := by
  norm_num [stabProcess, decayStab, lockedStab]

/-- C6 amended: a frame whose amplitude is below `max(rms_threshold,1)·10`
makes `NoteStabilizer.process` return frequency 0 with the invalid flag
and clears the frequency/cents history (`last_stable_freq`,
`cents_history`, `last_valid_cents`), regardless of the raw frequency and
confidence; the amplitude-envelope fields (`prev_amplitude`,
`frames_since_attack`, `consecutive_decay_frames`) are updated, not
cleared. -/
theorem C6_silence_invalid_and_clears_history (st : StabState) (R conf A thr : ℚ)
    (hsil : A < max thr 1 * 10) :
    (stabProcess st R conf A thr).2 = (0, false) ∧
      (stabProcess st R conf A thr).1.last_stable_freq = 0 ∧
      (stabProcess st R conf A thr).1.cents_history = [] ∧
      (stabProcess st R conf A thr).1.last_valid_cents = 0 := by
  simp [stabProcess, hsil]

/-- C6 witness: the amended statement at the concrete sub-floor frame. -/
theorem C6_silence_invalid_and_clears_history_witness :
    (stabProcess decayStab 7 (1 / 2) 5 1).2 = (0, false) ∧
      (stabProcess decayStab 7 (1 / 2) 5 1).1.last_stable_freq = 0 ∧
      (stabProcess decayStab 7 (1 / 2) 5 1).1.cents_history = [] ∧
      (stabProcess decayStab 7 (1 / 2) 5 1).1.last_valid_cents = 0 :=
  C6_silence_invalid_and_clears_history decayStab 7 (1 / 2) 5 1 (by norm_num)

/-! ### Fusion rule (claim C3) -/

/-- C3: with each band validated by `confidence < yin_threshold` and
`frequency > 0`: both valid prefers the high band above 350 Hz, else the
low band below 150 Hz, else the band with the (strictly) lower
confidence; exactly one valid band is used as-is; no valid band yields
raw frequency 0 (confidence 1). -/
theorem C3_fusion_rule (threshold fL cL fH cH : ℚ) :
    (cL < threshold → 0 < fL → cH < threshold → 0 < fH → 350 < fH →
      fuse threshold fL cL fH cH = (fH, cH)) ∧
    (cL < threshold → 0 < fL → cH < threshold → 0 < fH → fH ≤ 350 → fL < 150 →
      fuse threshold fL cL fH cH = (fL, cL)) ∧
    (cL < threshold → 0 < fL → cH < threshold → 0 < fH → fH ≤ 350 → 150 ≤ fL → cH < cL →
      fuse threshold fL cL fH cH = (fH, cH)) ∧
    (cL < threshold → 0 < fL → cH < threshold → 0 < fH → fH ≤ 350 → 150 ≤ fL → cL < cH →
      fuse threshold fL cL fH cH = (fL, cL)) ∧
    (¬(cL < threshold ∧ 0 < fL) → cH < threshold → 0 < fH →
      fuse threshold fL cL fH cH = (fH, cH)) ∧
    (cL < threshold → 0 < fL → ¬(cH < threshold ∧ 0 < fH) →
      fuse threshold fL cL fH cH = (fL, cL)) ∧
    (¬(cL < threshold ∧ 0 < fL) → ¬(cH < threshold ∧ 0 < fH) →
      fuse threshold fL cL fH cH = (0, 1)) := by
  refine ⟨?_, ?_, ?_, ?_, ?_, ?_, ?_⟩
  · intro h1 h2 h3 h4 h5
    simp [fuse, h1, h2, h3, h4, h5]
  · intro h1 h2 h3 h4 h5 h6
    simp [fuse, h1, h2, h3, h4, h6, not_lt.mpr h5]
  · intro h1 h2 h3 h4 h5 h6 h7
    simp [fuse, h1, h2, h3, h4, not_lt.mpr h5, not_lt.mpr h6, le_of_lt h7]
  · intro h1 h2 h3 h4 h5 h6 h7
    simp [fuse, h1, h2, h3, h4, not_lt.mpr h5, not_lt.mpr h6, not_le.mpr h7]
  · intro h1 h2 h3
    simp [fuse, h1, h2, h3]
  · intro h1 h2 h3
    simp [fuse, h1, h2, h3]
  · intro h1 h2
    simp [fuse, h1, h2]

/-- C3 witness: one concrete frame per fusion case. -/
theorem C3_fusion_rule_witness :
    fuse (1 / 5) 100 (1 / 10) 400 (1 / 20) = (400, 1 / 20) ∧
      fuse (1 / 5) 100 (1 / 10) 300 (1 / 20) = (100, 1 / 10) ∧
      fuse (1 / 5) 200 (1 / 10) 300 (1 / 20) = (300, 1 / 20) ∧
      fuse (1 / 5) 200 (1 / 20) 300 (1 / 10) = (200, 1 / 20) ∧
      fuse (1 / 5) 0 1 300 (1 / 20) = (300, 1 / 20) ∧
      fuse (1 / 5) 200 (1 / 10) 0 1 = (200, 1 / 10) ∧
      fuse (1 / 5) 0 1 0 1 = (0, 1) :=
  ⟨(C3_fusion_rule (1 / 5) 100 (1 / 10) 400 (1 / 20)).1 (by norm_num) (by norm_num)
      (by norm_num) (by norm_num) (by norm_num),
    (C3_fusion_rule (1 / 5) 100 (1 / 10) 300 (1 / 20)).2.1 (by norm_num) (by norm_num)
      (by norm_num) (by norm_num) (by norm_num) (by norm_num),
    (C3_fusion_rule (1 / 5) 200 (1 / 10) 300 (1 / 20)).2.2.1 (by norm_num) (by norm_num)
      (by norm_num) (by norm_num) (by norm_num) (by norm_num) (by norm_num),
    (C3_fusion_rule (1 / 5) 200 (1 / 20) 300 (1 / 10)).2.2.2.1 (by norm_num) (by norm_num)
      (by norm_num) (by norm_num) (by norm_num) (by norm_num) (by norm_num),
    (C3_fusion_rule (1 / 5) 0 1 300 (1 / 20)).2.2.2.2.1 (by norm_num) (by norm_num)
      (by norm_num),
    (C3_fusion_rule (1 / 5) 200 (1 / 10) 0 1).2.2.2.2.2.1 (by norm_num) (by norm_num)
      (by norm_num),
    (C3_fusion_rule (1 / 5) 0 1 0 1).2.2.2.2.2.2 (by norm_num) (by norm_num)⟩

/-! ### Nearest-note matching (claim C4) -/

theorem matchLoop_some_char (freq : ℝ) (hf : 0 < freq) :
    ∀ ts : List (String × ℝ), (∀ q ∈ ts, (0 : ℝ) < q.2) → ∀ bn bc,
      ∃ nm c, matchLoop freq ts (some (bn, bc)) = some (nm, c) ∧ |c| ≤ |bc| ∧
        (∀ j q, ts.get? j = some q → |c| ≤ |centsOf freq q.2|) ∧
        ((nm = bn ∧ c = bc) ∨
          ∃ i p, ts.get? i = some p ∧ nm = p.1 ∧ c = centsOf freq p.2 ∧ |c| < |bc| ∧
            (∀ j q, j < i → ts.get? j = some q → |c| < |centsOf freq q.2|)) := by
  intro ts
  induction ts with
  | nil =>
      intro _ bn bc
      refine ⟨bn, bc, rfl, le_refl _, ?_, Or.inl ⟨rfl, rfl⟩⟩
      intro j q hj
      simp at hj
  | cons p rest ih =>
      intro hpos bn bc
      have hp : (0 : ℝ) < p.2 := hpos p (List.mem_cons_self p rest)
      have hrest : ∀ q ∈ rest, (0 : ℝ) < q.2 := fun q hq => hpos q (List.mem_cons_of_mem p hq)
      have hguard : ¬ freq / p.2 ≤ 0 := not_le.mpr (div_pos hf hp)
      rw [matchLoop, if_neg hguard]
      dsimp only
      by_cases hlt : |centsOf freq p.2| < |bc|
      · rw [if_pos hlt]
        obtain ⟨nm, c, heq, hle, hall, hcase⟩ := ih hrest p.1 (centsOf freq p.2)
        refine ⟨nm, c, heq, (lt_of_le_of_lt hle hlt).le, ?_, ?_⟩
        · intro j q hj
          cases j with
          | zero =>
              rw [List.get?_cons_zero, Option.some.injEq] at hj
              exact hj ▸ hle
          | succ j =>
              rw [List.get?_cons_succ] at hj
              exact hall j q hj
        · rcases hcase with ⟨hnm, hc⟩ | ⟨i, w, hgw, hnm, hcw, hltbc, hstrict⟩
          · refine Or.inr ⟨0, p, List.get?_cons_zero, hnm, hc, hc ▸ hlt, ?_⟩
            intro j q hj
            omega
          · refine Or.inr ⟨i + 1, w, by rw [List.get?_cons_succ]; exact hgw, hnm, hcw,
              lt_trans hltbc hlt, ?_⟩
            intro j q hj hjq
            cases j with
            | zero =>
                rw [List.get?_cons_zero, Option.some.injEq] at hjq
                exact hjq ▸ hltbc
            | succ j =>
                rw [List.get?_cons_succ] at hjq
                exact hstrict j q (by omega) hjq
      · rw [if_neg hlt]
        obtain ⟨nm, c, heq, hle, hall, hcase⟩ := ih hrest bn bc
        have hble : |bc| ≤ |centsOf freq p.2| := not_lt.mp hlt
        refine ⟨nm, c, heq, hle, ?_, ?_⟩
        · intro j q hj
          cases j with
          | zero =>
              rw [List.get?_cons_zero, Option.some.injEq] at hj
              exact hj ▸ le_trans hle hble
          | succ j =>
              rw [List.get?_cons_succ] at hj
              exact hall j q hj
        · rcases hcase with hl | ⟨i, w, hgw, hnm, hcw, hltbc, hstrict⟩
          · exact Or.inl hl
          · refine Or.inr ⟨i + 1, w, by rw [List.get?_cons_succ]; exact hgw, hnm, hcw,
              hltbc, ?_⟩
            intro j q hj hjq
            cases j with
            | zero =>
                rw [List.get?_cons_zero, Option.some.injEq] at hjq
                exact hjq ▸ lt_of_lt_of_le hltbc hble
            | succ j =>
                rw [List.get?_cons_succ] at hjq
                exact hstrict j q (by omega) hjq

theorem matchLoop_char (freq : ℝ) (hf : 0 < freq) (ts : List (String × ℝ))
    (hpos : ∀ q ∈ ts, (0 : ℝ) < q.2) (hne : ts ≠ []) :
    ∃ nm c i p, matchLoop freq ts none = some (nm, c) ∧ ts.get? i = some p ∧
      nm = p.1 ∧ c = centsOf freq p.2 ∧
      (∀ j q, ts.get? j = some q → |c| ≤ |centsOf freq q.2|) ∧
      (∀ j q, j < i → ts.get? j = some q → |c| < |centsOf freq q.2|) := by
  rcases ts with _ | ⟨p, rest⟩
  · exact absurd rfl hne
  · have hp : (0 : ℝ) < p.2 := hpos p (List.mem_cons_self p rest)
    have hrest : ∀ q ∈ rest, (0 : ℝ) < q.2 := fun q hq => hpos q (List.mem_cons_of_mem p hq)
    have hguard : ¬ freq / p.2 ≤ 0 := not_le.mpr (div_pos hf hp)
    rw [matchLoop, if_neg hguard]
    dsimp only
    obtain ⟨nm, c, heq, hle, hall, hcase⟩ := matchLoop_some_char freq hf rest hrest p.1
      (centsOf freq p.2)
    rcases hcase with ⟨hnm, hc⟩ | ⟨i, w, hgw, hnm, hcw, hltbc, hstrict⟩
    · refine ⟨nm, c, 0, p, heq, List.get?_cons_zero, hnm, hc, ?_, ?_⟩
      · intro j q hj
        cases j with
        | zero =>
            rw [List.get?_cons_zero, Option.some.injEq] at hj
            exact hj ▸ hc ▸ le_refl _
        | succ j =>
            rw [List.get?_cons_succ] at hj
            exact hall j q hj
      · intro j q hj
        omega
    · refine ⟨nm, c, i + 1, w, heq, by rw [List.get?_cons_succ]; exact hgw, hnm, hcw, ?_, ?_⟩
      · intro j q hj
        cases j with
        | zero =>
            rw [List.get?_cons_zero, Option.some.injEq] at hj
            exact hj ▸ hltbc.le
        | succ j =>
            rw [List.get?_cons_succ] at hj
            exact hall j q hj
      · intro j q hj hjq
        cases j with
        | zero =>
            rw [List.get?_cons_zero, Option.some.injEq] at hjq
            exact hjq ▸ hltbc
        | succ j =>
            rw [List.get?_cons_succ] at hjq
            exact hstrict j q (by omega) hjq

/-- C4: for every positive input frequency and every tuning target set
(positive reference frequencies), `_match_frequency` selects, among the
per-target cents values `1200*log2(freq/target)`, the first-encountered
minimizer of `|cents|`; reports no-match with cents 0 when the best
`|cents|` exceeds the window; classifies a best match within ±50 cents as
on-pitch (`|cents| < 5`), sharp (`cents > 0`) or flat (`cents < 0`); and
beyond ±50 but within the window reports too-sharp/too-flat with the
matched label retained. -/
theorem C4_nearest_note_matching (window freq : ℝ) (targets : List (String × ℝ))
    (hf : 0 < freq) (hpos : ∀ q ∈ targets, (0 : ℝ) < q.2) :
    (targets = [] → matchFrequency window targets freq = (MatchVerdict.noMatch, 0)) ∧
    (targets ≠ [] → ∃ nm c i p,
      matchLoop freq targets none = some (nm, c) ∧ targets.get? i = some p ∧
      nm = p.1 ∧ c = centsOf freq p.2 ∧
      (∀ j q, targets.get? j = some q → |c| ≤ |centsOf freq q.2|) ∧
      (∀ j q, j < i → targets.get? j = some q → |c| < |centsOf freq q.2|) ∧
      (window < |c| → matchFrequency window targets freq = (MatchVerdict.noMatch, 0)) ∧
      (|c| ≤ window →
        (|c| < 5 → matchFrequency window targets freq = (MatchVerdict.onPitch nm, c)) ∧
        (5 ≤ |c| → |c| ≤ 50 → 0 < c →
          matchFrequency window targets freq = (MatchVerdict.sharp nm, c)) ∧
        (5 ≤ |c| → |c| ≤ 50 → c < 0 →
          matchFrequency window targets freq = (MatchVerdict.flat nm, c)) ∧
        (50 < |c| → 0 < c →
          matchFrequency window targets freq = (MatchVerdict.tooSharp nm, c)) ∧
        (50 < |c| → c < 0 →
          matchFrequency window targets freq = (MatchVerdict.tooFlat nm, c)))) := by
  constructor
  · intro hemp
    subst hemp
    rw [matchFrequency, if_neg (ne_of_gt hf)]
    rfl
  · intro hne
    obtain ⟨nm, c, i, p, heq, hgp, hnm, hc, hall, hstrict⟩ :=
      matchLoop_char freq hf targets hpos hne
    have hbase : ∀ v : MatchVerdict × ℝ,
        (match matchLoop freq targets none with
          | none => (MatchVerdict.noMatch, (0 : ℝ))
          | some bd =>
              if window < |bd.2| then (MatchVerdict.noMatch, 0)
              else if |bd.2| ≤ 50 then
                (if |bd.2| < 5 then (MatchVerdict.onPitch bd.1, bd.2)
                 else if 0 < bd.2 then (MatchVerdict.sharp bd.1, bd.2)
                 else (MatchVerdict.flat bd.1, bd.2))
              else if 0 < bd.2 then (MatchVerdict.tooSharp bd.1, bd.2)
              else (MatchVerdict.tooFlat bd.1, bd.2)) = v →
        matchFrequency window targets freq = v := by
      intro v hv
      rw [matchFrequency, if_neg (ne_of_gt hf)]
      exact hv
    refine ⟨nm, c, i, p, heq, hgp, hnm, hc, hall, hstrict, ?_, ?_⟩
    · intro hwin
      exact hbase _ (by rw [heq]; dsimp only; rw [if_pos hwin])
    · intro hwle
      refine ⟨?_, ?_, ?_, ?_, ?_⟩
      · intro h5
        exact hbase _ (by
          rw [heq]; dsimp only
          rw [if_neg (not_lt.mpr hwle), if_pos (le_trans h5.le (by norm_num)), if_pos h5])
      · intro h5 h50 hcpos
        exact hbase _ (by
          rw [heq]; dsimp only
          rw [if_neg (not_lt.mpr hwle), if_pos h50, if_neg (not_lt.mpr h5), if_pos hcpos])
      · intro h5 h50 hcneg
        exact hbase _ (by
          rw [heq]; dsimp only
          rw [if_neg (not_lt.mpr hwle), if_pos h50, if_neg (not_lt.mpr h5),
            if_neg (not_lt.mpr hcneg.le)])
      · intro h50 hcpos
        exact hbase _ (by
          rw [heq]; dsimp only
          rw [if_neg (not_lt.mpr hwle), if_neg (not_le.mpr h50), if_pos hcpos])
      · intro h50 hcneg
        exact hbase _ (by
          rw [heq]; dsimp only
          rw [if_neg (not_lt.mpr hwle), if_neg (not_le.mpr h50),
            if_neg (not_lt.mpr hcneg.le)])

/-- C4 witness: the matching characterization applied to the two-target
set at 440 Hz with the default window 300. -/
theorem C4_nearest_note_matching_witness :
    ((0 : ℝ) < 440 ∧ ∀ q ∈ demoTargets, (0 : ℝ) < q.2) ∧
      ((demoTargets = [] → matchFrequency 300 demoTargets 440 = (MatchVerdict.noMatch, 0)) ∧
        (demoTargets ≠ [] → ∃ nm c i p,
          matchLoop 440 demoTargets none = some (nm, c) ∧ demoTargets.get? i = some p ∧
          nm = p.1 ∧ c = centsOf 440 p.2 ∧
          (∀ j q, demoTargets.get? j = some q → |c| ≤ |centsOf 440 q.2|) ∧
          (∀ j q, j < i → demoTargets.get? j = some q → |c| < |centsOf 440 q.2|) ∧
          (300 < |c| → matchFrequency 300 demoTargets 440 = (MatchVerdict.noMatch, 0)) ∧
          (|c| ≤ 300 →
            (|c| < 5 → matchFrequency 300 demoTargets 440 = (MatchVerdict.onPitch nm, c)) ∧
            (5 ≤ |c| → |c| ≤ 50 → 0 < c →
              matchFrequency 300 demoTargets 440 = (MatchVerdict.sharp nm, c)) ∧
            (5 ≤ |c| → |c| ≤ 50 → c < 0 →
              matchFrequency 300 demoTargets 440 = (MatchVerdict.flat nm, c)) ∧
            (50 < |c| → 0 < c →
              matchFrequency 300 demoTargets 440 = (MatchVerdict.tooSharp nm, c)) ∧
            (50 < |c| → c < 0 →
              matchFrequency 300 demoTargets 440 = (MatchVerdict.tooFlat nm, c))))) :=
  ⟨⟨by norm_num, by intro q hq; fin_cases hq <;> norm_num [demoTargets]⟩,
    C4_nearest_note_matching 300 440 demoTargets (by norm_num)
      (by intro q hq; fin_cases hq <;> norm_num [demoTargets])⟩

/-! ### The hold-over fallback of `PitchAnalyzer.process` (claim C10) -/

/-- C10: when the stabilizer reports the frame invalid but (after the
stabilizer ran) `last_valid_cents` is nonzero and the RMS amplitude
exceeds `threshold_rms * 10`, `PitchAnalyzer.process` does not emit the
empty result: the cents output is `some last_valid_cents`, and whenever
matching `440 * 2^(cents/1200)` yields a verdict, that verdict is the
displayed result instead of `"---"`. -/
theorem C10_invalid_frame_holds_cents (settings : Settings) (targets : List (String × ℝ))
    (st : StabState) (raw conf rms : ℚ)
    (hinvalid : ¬((stabProcess st raw conf rms (getQ settings ("threshold") 10)).2.2 = true ∧
      0 < (stabProcess st raw conf rms (getQ settings ("threshold") 10)).2.1))
    (hcents : (stabProcess st raw conf rms
        (getQ settings ("threshold") 10)).1.last_valid_cents ≠ 0)
    (hloud : getQ settings ("threshold") 10 * 10 < rms) :
    (processOutput settings targets st raw conf rms).2.2 =
      some (stabProcess st raw conf rms (getQ settings ("threshold") 10)).1.last_valid_cents ∧
    ((matchFrequency ((getQ settings ("nearest_note_window") 300 : ℚ) : ℝ) targets
        (440 * (2 : ℝ) ^ ((stabProcess st raw conf rms
          (getQ settings ("threshold") 10)).1.last_valid_cents / 1200))).1 ≠
        MatchVerdict.noMatch →
      (processOutput settings targets st raw conf rms).2.1 =
        (matchFrequency ((getQ settings ("nearest_note_window") 300 : ℚ) : ℝ) targets
          (440 * (2 : ℝ) ^ ((stabProcess st raw conf rms
            (getQ settings ("threshold") 10)).1.last_valid_cents / 1200))).1) := by
  simp only [processOutput]
  rw [if_neg hinvalid, if_pos ⟨hcents, hloud⟩]
  constructor
  · by_cases hm : (matchFrequency ((getQ settings ("nearest_note_window") 300 : ℚ) : ℝ) targets
        (440 * (2 : ℝ) ^ ((stabProcess st raw conf rms
          (getQ settings ("threshold") 10)).1.last_valid_cents / 1200))).1 ≠
        MatchVerdict.noMatch
    · rw [if_pos hm]
    · rw [if_neg hm]
  · intro hm
    rw [if_pos hm]

theorem stab_demo_eval :
    stabProcess lockedStab 0 1 12 (getQ demoSettings ("threshold") 10) =
      ({ lockedStab with prev_amplitude := 12, frames_since_attack := 10,
                         consecutive_decay_frames := 7 }, 0, false) := by
  norm_num [stabProcess, lockedStab, demoSettings, getQ, getS, List.lookup]

/-- C10 witness: a loud (RMS 12, floor 10, hold threshold 5) frame with no
raw frequency holds the previously recorded cents value 7. -/
theorem C10_invalid_frame_holds_cents_witness :
    (¬((stabProcess lockedStab 0 1 12 (getQ demoSettings ("threshold") 10)).2.2 = true ∧
        0 < (stabProcess lockedStab 0 1 12 (getQ demoSettings ("threshold") 10)).2.1) ∧
      (stabProcess lockedStab 0 1 12
          (getQ demoSettings ("threshold") 10)).1.last_valid_cents ≠ 0 ∧
      getQ demoSettings ("threshold") 10 * 10 < (12 : ℚ)) ∧
      (processOutput demoSettings demoTargets lockedStab 0 1 12).2.2 =
        some (stabProcess lockedStab 0 1 12
          (getQ demoSettings ("threshold") 10)).1.last_valid_cents := by
  have h1 : ¬((stabProcess lockedStab 0 1 12 (getQ demoSettings ("threshold") 10)).2.2 = true ∧
      0 < (stabProcess lockedStab 0 1 12 (getQ demoSettings ("threshold") 10)).2.1) := by
    rw [stab_demo_eval]
    norm_num
  have h2 : (stabProcess lockedStab 0 1 12
      (getQ demoSettings ("threshold") 10)).1.last_valid_cents ≠ 0 := by
    rw [stab_demo_eval]
    norm_num [lockedStab]
  have h3 : getQ demoSettings ("threshold") 10 * 10 < (12 : ℚ) := by
    norm_num [demoSettings, getQ, getS, List.lookup]
  exact ⟨⟨h1, h2, h3⟩,
    (C10_invalid_frame_holds_cents demoSettings demoTargets lockedStab 0 1 12 h1 h2 h3).1⟩

/-! ### Configuration updates (claim C8) -/

theorem lookup_append_some (k : String) (v : SVal) :
    ∀ l1 l2 : Settings, List.lookup k l1 = some v → List.lookup k (l1 ++ l2) = some v := by
  intro l1 l2 h
  induction l1 with
  | nil => simp [List.lookup] at h
  | cons p rest ih =>
      obtain ⟨k1, v1⟩ := p
      rw [List.cons_append]
      by_cases hk : (k == k1) = true
      · simp only [List.lookup, hk] at h ⊢
        exact h
      · rw [Bool.not_eq_true] at hk
        simp only [List.lookup, hk] at h ⊢
        exact ih h

theorem getQ_mergeS (old new : Settings) (k : String) (v : ℚ)
    (h : getS new k = some (SVal.q v)) (dflt : ℚ) : getQ (mergeS old new) k dflt = v := by
  rw [getQ, getS, mergeS, lookup_append_some k (SVal.q v) new old h]

/-- C8: `update_settings` returns `true` (restart) exactly when the
partial configuration contains one of `latency_mode`, `instrument_type`,
`high_quality`.  Without those keys nothing is reallocated — buffers,
pointers, remainders, sizes, decimation factors and both `YinProcessor`s
are untouched — while a supplied `yin_threshold`/`threshold` value is
visible immediately in the merged settings and in the stabilizer.  With
one of those keys, both double buffers are reallocated as zeros, pointers
and remainders cleared, both `YinProcessor`s rebuilt from the merged
settings, and the stabilizer reset. -/
theorem C8_update_settings_restart_iff (st : AnalyzerState) (newCfg : Settings) :
    ((updateSettings st newCfg).1 = true ↔
      ((getS newCfg ("latency_mode")).isSome ∨ (getS newCfg ("instrument_type")).isSome ∨
        (getS newCfg ("high_quality")).isSome)) ∧
    ((updateSettings st newCfg).1 = false →
      ((updateSettings st newCfg).2.bufLow = st.bufLow ∧
        (updateSettings st newCfg).2.ptrLow = st.ptrLow ∧
        (updateSettings st newCfg).2.remLow = st.remLow ∧
        (updateSettings st newCfg).2.sizeLow = st.sizeLow ∧
        (updateSettings st newCfg).2.decLow = st.decLow ∧
        (updateSettings st newCfg).2.bufHigh = st.bufHigh ∧
        (updateSettings st newCfg).2.ptrHigh = st.ptrHigh ∧
        (updateSettings st newCfg).2.remHigh = st.remHigh ∧
        (updateSettings st newCfg).2.sizeHigh = st.sizeHigh ∧
        (updateSettings st newCfg).2.decHigh = st.decHigh ∧
        (updateSettings st newCfg).2.procLow = st.procLow ∧
        (updateSettings st newCfg).2.procHigh = st.procHigh) ∧
      (∀ v, getS newCfg ("yin_threshold") = some (SVal.q v) →
        getQ (updateSettings st newCfg).2.settings ("yin_threshold") (1 / 5) = v ∧
          (updateSettings st newCfg).2.stab.yin_threshold = v) ∧
      (∀ v, getS newCfg ("threshold") = some (SVal.q v) →
        getQ (updateSettings st newCfg).2.settings ("threshold") 10 = v)) ∧
    ((updateSettings st newCfg).1 = true →
      (updateSettings st newCfg).2.bufLow = (fun _ => 0) ∧
      (updateSettings st newCfg).2.ptrLow = 0 ∧
      (updateSettings st newCfg).2.remLow = [] ∧
      (updateSettings st newCfg).2.bufHigh = (fun _ => 0) ∧
      (updateSettings st newCfg).2.ptrHigh = 0 ∧
      (updateSettings st newCfg).2.remHigh = [] ∧
      (updateSettings st newCfg).2.procLow = some (lowProcOf (mergeS st.settings newCfg)) ∧
      (updateSettings st newCfg).2.procHigh = some (highProcOf (mergeS st.settings newCfg)) ∧
      (updateSettings st newCfg).2.stab =
        stabReset (stabUpdateConfig (mergeS st.settings newCfg) st.stab)) := by
  refine ⟨?_, ?_, ?_⟩
  · simp [updateSettings, restartKeys, Option.isSome_iff_exists]
  · intro hfalse
    have hNR : (restartKeys.any fun k => (getS newCfg k).isSome) = false := by
      simpa [updateSettings] using hfalse
    refine ⟨?_, ?_, ?_⟩
    · simp [updateSettings, applySettings, hNR]
    · intro v hv
      refine ⟨?_, ?_⟩
      · simp only [updateSettings, hNR, applySettings, if_pos rfl]
        exact getQ_mergeS st.settings newCfg ("yin_threshold") v hv (1 / 5)
      · simp only [updateSettings, hNR, applySettings, if_pos rfl]
        simp only [stabUpdateConfig]
        exact getQ_mergeS st.settings newCfg ("yin_threshold") v hv (1 / 5)
    · intro v hv
      simp only [updateSettings, hNR, applySettings, if_pos rfl]
      exact getQ_mergeS st.settings newCfg ("threshold") v hv 10
  · intro htrue
    have hNR : (restartKeys.any fun k => (getS newCfg k).isSome) = true := by
      simpa [updateSettings] using htrue
    simp [updateSettings, applySettings, hNR, mergeS]

/-- C8 witness: a pure `yin_threshold` update does not restart and is
visible immediately; a `latency_mode` update restarts. -/
theorem C8_update_settings_restart_iff_witness :
    ((updateSettings demoAnalyzer [(("yin_threshold"), SVal.q (3 / 10))]).1 = false ∧
      (updateSettings demoAnalyzer [(("yin_threshold"), SVal.q (3 / 10))]).2.procLow =
        demoAnalyzer.procLow ∧
      getQ (updateSettings demoAnalyzer
        [(("yin_threshold"), SVal.q (3 / 10))]).2.settings ("yin_threshold") (1 / 5) = 3 / 10) ∧
    (updateSettings demoAnalyzer [(("latency_mode"), SVal.s ("fast"))]).1 = true := by
  have h := C8_update_settings_restart_iff demoAnalyzer [(("yin_threshold"), SVal.q (3 / 10))]
  have hfalse : (updateSettings demoAnalyzer [(("yin_threshold"), SVal.q (3 / 10))]).1 = false := by
    rw [Bool.eq_false_iff]
    intro ht
    have := h.1.mp ht
    simp [getS, List.lookup] at this
  have hparts := h.2.1 hfalse
  refine ⟨⟨hfalse, hparts.1.2.2.2.2.2.2.2.2.2.2.1, (hparts.2.1 (3 / 10) ?_).1⟩, ?_⟩
  · simp [getS, List.lookup]
  · exact (C8_update_settings_restart_iff demoAnalyzer
      [(("latency_mode"), SVal.s ("fast"))]).1.mpr (Or.inl (by simp [getS, List.lookup]))


/-! ### Lemmas: the band buffer update (C7) -/

theorem window_length (buf : ℕ → ℚ) (ptr N : ℕ) : (window buf ptr N).length = N := by
  simp [window]

theorem window_getElem (buf : ℕ → ℚ) (ptr N i : ℕ) (h : i < (window buf ptr N).length) :
    (window buf ptr N)[i] = buf (ptr + i) := by
  simp [window]

theorem writeSeg_apply (buf : ℕ → ℚ) (start : ℕ) (data : List ℚ) (i : ℕ) :
    writeSeg buf start data i =
      if start ≤ i ∧ i < start + data.length then data.getD (i - start) 0 else buf i := rfl

theorem lastN_length (N : ℕ) (xs : List ℚ) : (lastN N xs).length = min N xs.length := by
  rw [lastN, List.length_drop]
  omega

theorem lastN_of_le (N : ℕ) (xs : List ℚ) (h : xs.length ≤ N) : lastN N xs = xs := by
  rw [lastN]
  have : xs.length - N = 0 := by omega
  rw [this, List.drop_zero]

theorem lastN_append (N : ℕ) (s d : List ℚ) (hs : N ≤ s.length) :
    lastN N (s ++ d) = (lastN N s).drop (min d.length N) ++ lastN N d := by
  rw [lastN, lastN, lastN, List.length_append]
  by_cases hd : d.length ≤ N
  · have h1 : min d.length N = d.length := min_eq_left hd
    have h2 : s.length + d.length - N ≤ s.length := by omega
    rw [h1, List.drop_append_of_le_length h2, List.drop_drop]
    have h3 : d.length - N = 0 := by omega
    rw [h3, List.drop_zero]
    congr 2
    omega
  · have h1 : min d.length N = N := min_eq_right (by omega)
    have h2 : s.length + d.length - N = s.length + (d.length - N) := by omega
    rw [h1, h2, List.drop_append]
    have h3 : (s.drop (s.length - N)).length ≤ N := by
      rw [List.length_drop]
      omega
    rw [List.drop_eq_nil_of_le h3, List.nil_append]

theorem decimateChunks_length (D : ℕ) (xs : List ℚ) :
    (decimateChunks D xs).length = xs.length / D := by
  simp [decimateChunks]

theorem decimateChunks_nil_of_lt (D : ℕ) (xs : List ℚ) (h : xs.length < D) :
    decimateChunks D xs = [] := by
  rw [decimateChunks, Nat.div_eq_of_lt h]
  rfl

theorem decimateChunks_getD (D : ℕ) (hD : 0 < D) (xs : List ℚ) (k : ℕ)
    (hk : k < xs.length / D) :
    (decimateChunks D xs).getD k 0 = ((xs.drop (k * D)).take D).sum / D := by
  rw [decimateChunks]
  have hlen : k < ((List.range (xs.length / D)).map
      fun k => listMean ((xs.drop (k * D)).take D)).length := by
    simpa using hk
  rw [List.getD_eq_getElem _ _ hlen]
  simp only [List.getElem_map, List.getElem_range]
  rw [listMean]
  have hchunk : ((xs.drop (k * D)).take D).length = D := by
    rw [List.length_take, List.length_drop]
    have h1 : (k + 1) * D ≤ xs.length / D * D := Nat.mul_le_mul_right D hk
    have h2 : xs.length / D * D ≤ xs.length := Nat.div_mul_le_self _ _
    have h3 : k * D + D ≤ xs.length := by
      calc k * D + D = (k + 1) * D := by ring
      _ ≤ xs.length / D * D := h1
      _ ≤ xs.length := h2
    omega
  rw [hchunk]

theorem decimateChunks_take_full (D : ℕ) (hD : 0 < D) (xs : List ℚ) :
    decimateChunks D (xs.take (xs.length / D * D)) = decimateChunks D xs := by
  have hle : xs.length / D * D ≤ xs.length := Nat.div_mul_le_self _ _
  have hlen : (xs.take (xs.length / D * D)).length = xs.length / D * D := by
    rw [List.length_take]
    omega
  rw [decimateChunks, decimateChunks, hlen, Nat.mul_div_cancel _ hD]
  refine List.map_congr_left ?_
  intro k hk
  rw [List.mem_range] at hk
  have hkD : k * D + D ≤ xs.length / D * D := by
    calc k * D + D = (k + 1) * D := by ring
    _ ≤ xs.length / D * D := Nat.mul_le_mul_right D hk
  rw [List.drop_take, List.take_take]
  rw [min_eq_left (Nat.le_sub_of_add_le (by rw [Nat.add_comm]; exact hkD))]

theorem decimateChunks_append (D : ℕ) (hD : 0 < D) (xs ys : List ℚ) (m : ℕ)
    (hm : xs.length = D * m) :
    decimateChunks D (xs ++ ys) = decimateChunks D xs ++ decimateChunks D ys := by
  rw [decimateChunks, decimateChunks, decimateChunks, List.length_append, hm,
    Nat.mul_add_div hD, Nat.mul_div_cancel_left _ hD, List.range_add, List.map_append,
    List.map_map]
  congr 1
  · refine List.map_congr_left ?_
    intro k hk
    rw [List.mem_range] at hk
    have h1 : k * D ≤ xs.length := by
      rw [hm]
      calc k * D ≤ m * D := Nat.mul_le_mul_right D (le_of_lt hk)
      _ = D * m := Nat.mul_comm m D
    rw [List.drop_append_of_le_length h1]
    have h2 : D ≤ (xs.drop (k * D)).length := by
      rw [List.length_drop, hm]
      have h3 : k * D + D ≤ D * m := by
        calc k * D + D = (k + 1) * D := by ring
        _ ≤ m * D := Nat.mul_le_mul_right D hk
        _ = D * m := Nat.mul_comm m D
      omega
    rw [List.take_append_of_le_length h2]
  · refine List.map_congr_left ?_
    intro k hk
    rw [List.mem_range] at hk
    simp only [Function.comp_apply]
    have h1 : (m + k) * D = xs.length + k * D := by rw [hm]; ring
    rw [h1, List.drop_append]

theorem leftover_append (D : ℕ) (hD : 0 < D) (xs ys : List ℚ) (m : ℕ)
    (hm : xs.length = D * m) :
    (xs ++ ys).drop ((xs ++ ys).length / D * D) = ys.drop (ys.length / D * D) := by
  rw [List.length_append, hm, Nat.mul_add_div hD]
  have h1 : (m + ys.length / D) * D = xs.length + ys.length / D * D := by rw [hm]; ring
  rw [h1, List.drop_append]

theorem window_init (N : ℕ) : window (fun _ => (0 : ℚ)) 0 N = List.replicate N 0 := by
  apply List.ext_getElem
  · simp [window]
  · intro i h1 h2
    simp [window]

theorem getD_take (l : List ℚ) (n m : ℕ) (d : ℚ) (h : m < n) (hml : m < l.length) :
    (l.take n).getD m d = l.getD m d := by
  rw [List.getD_eq_getElem _ _ (by rw [List.length_take]; omega),
    List.getD_eq_getElem _ _ hml]
  exact List.getElem_take l

theorem getD_drop (l : List ℚ) (n m : ℕ) (d : ℚ) (h : n + m < l.length) :
    (l.drop n).getD m d = l.getD (n + m) d := by
  rw [List.getD_eq_getElem _ _ (by rw [List.length_drop]; omega),
    List.getD_eq_getElem _ _ h]
  exact List.getElem_drop l

theorem doubleWrite_spec (N : ℕ) (hN : 0 < N) (buf : ℕ → ℚ) (ptr : ℕ) (dec : List ℚ)
    (hm : ∀ i, i < N → buf (i + N) = buf i) (hp : ptr < N) (hlen : dec.length ≤ N) :
    (∀ i, i < N → (doubleWrite N buf ptr dec).1 (i + N) = (doubleWrite N buf ptr dec).1 i) ∧
      (doubleWrite N buf ptr dec).2 < N ∧
      window (doubleWrite N buf ptr dec).1 (doubleWrite N buf ptr dec).2 N =
        (window buf ptr N).drop dec.length ++ dec := by
  by_cases hsp : dec.length ≤ N - ptr
  · -- no-wrap branch
    have hdw : doubleWrite N buf ptr dec =
        (writeSeg (writeSeg buf ptr dec) (ptr + N) dec, (ptr + dec.length) % N) := by
      rw [doubleWrite, if_pos hsp]
    rw [hdw]
    have hpn : ptr + dec.length ≤ N := by omega
    refine ⟨?_, Nat.mod_lt _ hN, ?_⟩
    · intro i hi
      simp only [writeSeg_apply]
      by_cases h1 : ptr ≤ i ∧ i < ptr + dec.length
      · rw [if_pos (by omega : ptr + N ≤ i + N ∧ i + N < ptr + N + dec.length),
          if_neg (by omega : ¬(ptr + N ≤ i ∧ i < ptr + N + dec.length)), if_pos h1]
        have hidx : i + N - (ptr + N) = i - ptr := by omega
        rw [hidx]
      · rw [if_neg (by omega : ¬(ptr + N ≤ i + N ∧ i + N < ptr + N + dec.length)),
          if_neg (by omega : ¬(ptr ≤ i + N ∧ i + N < ptr + dec.length)),
          if_neg (by omega : ¬(ptr + N ≤ i ∧ i < ptr + N + dec.length)), if_neg h1]
        exact hm i hi
    · apply List.ext_getElem
      · rw [window_length, List.length_append, List.length_drop, window_length]
        omega
      · intro i h1 h2
        have hiN : i < N := by rw [window_length] at h1; exact h1
        rw [window_getElem]
        by_cases hio : i < N - dec.length
        · rw [List.getElem_append_left (by rw [List.length_drop, window_length]; omega)]
          rw [List.getElem_drop, window_getElem]
          simp only [writeSeg_apply]
          rcases Nat.lt_or_ge (ptr + dec.length) N with hlt | hge
          · rw [Nat.mod_eq_of_lt hlt,
              if_neg (by omega : ¬(ptr + N ≤ ptr + dec.length + i ∧
                ptr + dec.length + i < ptr + N + dec.length)),
              if_neg (by omega : ¬(ptr ≤ ptr + dec.length + i ∧
                ptr + dec.length + i < ptr + dec.length))]
            have hidx : ptr + dec.length + i = ptr + (dec.length + i) := by omega
            rw [hidx]
          · have heq : ptr + dec.length = N := by omega
            have hmod : (ptr + dec.length) % N = 0 := by rw [heq, Nat.mod_self]
            rw [hmod,
              if_neg (by omega : ¬(ptr + N ≤ 0 + i ∧ 0 + i < ptr + N + dec.length)),
              if_neg (by omega : ¬(ptr ≤ 0 + i ∧ 0 + i < ptr + dec.length))]
            have h3 : ptr + (dec.length + i) = i + N := by omega
            rw [h3, hm i (by omega)]
            have h4 : (0 : ℕ) + i = i := by omega
            rw [h4]
        · rw [List.getElem_append_right (by rw [List.length_drop, window_length]; omega)]
          simp only [List.length_drop, window_length]
          simp only [writeSeg_apply]
          rcases Nat.lt_or_ge (ptr + dec.length) N with hlt | hge
          · rw [Nat.mod_eq_of_lt hlt,
              if_pos (⟨by omega, by omega⟩ : ptr + N ≤ ptr + dec.length + i ∧
                ptr + dec.length + i < ptr + N + dec.length)]
            have hidx : ptr + dec.length + i - (ptr + N) = i - (N - dec.length) := by omega
            rw [hidx]
            exact List.getD_eq_getElem _ _ (by omega)
          · have heq : ptr + dec.length = N := by omega
            have hmod : (ptr + dec.length) % N = 0 := by rw [heq, Nat.mod_self]
            rw [hmod,
              if_neg (by omega : ¬(ptr + N ≤ 0 + i ∧ 0 + i < ptr + N + dec.length)),
              if_pos (⟨by omega, by omega⟩ : ptr ≤ 0 + i ∧ 0 + i < ptr + dec.length)]
            have hidx : 0 + i - ptr = i - (N - dec.length) := by omega
            rw [hidx]
            exact List.getD_eq_getElem _ _ (by omega)
  · -- wrap branch
    have hrs' : N - ptr < dec.length := by omega
    have hdw : doubleWrite N buf ptr dec =
        (writeSeg (writeSeg (writeSeg (writeSeg buf ptr (dec.take (N - ptr))) (ptr + N)
            (dec.take (N - ptr))) 0 (dec.drop (N - ptr))) N (dec.drop (N - ptr)),
          (dec.drop (N - ptr)).length) := by
      rw [doubleWrite, if_neg hsp]
    rw [hdw]
    have hrs : (dec.take (N - ptr)).length = N - ptr := by
      rw [List.length_take]
      omega
    have hc2 : (dec.drop (N - ptr)).length = dec.length - (N - ptr) := by
      rw [List.length_drop]
    refine ⟨?_, by omega, ?_⟩
    · intro i hi
      simp only [writeSeg_apply, hrs, hc2]
      by_cases hA : i < dec.length - (N - ptr)
      · rw [if_pos (⟨by omega, by omega⟩ : N ≤ i + N ∧ i + N < N + (dec.length - (N - ptr))),
          if_neg (by omega : ¬(N ≤ i ∧ i < N + (dec.length - (N - ptr)))),
          if_pos (⟨by omega, by omega⟩ : 0 ≤ i ∧ i < 0 + (dec.length - (N - ptr)))]
        have hidx : i + N - N = i - 0 := by omega
        rw [hidx]
      · by_cases hC : ptr ≤ i
        · rw [if_neg (by omega : ¬(N ≤ i + N ∧ i + N < N + (dec.length - (N - ptr)))),
            if_neg (by omega : ¬(0 ≤ i + N ∧ i + N < 0 + (dec.length - (N - ptr)))),
            if_pos (⟨by omega, by omega⟩ : ptr + N ≤ i + N ∧ i + N < ptr + N + (N - ptr)),
            if_neg (by omega : ¬(N ≤ i ∧ i < N + (dec.length - (N - ptr)))),
            if_neg (by omega : ¬(0 ≤ i ∧ i < 0 + (dec.length - (N - ptr)))),
            if_neg (by omega : ¬(ptr + N ≤ i ∧ i < ptr + N + (N - ptr))),
            if_pos (⟨hC, by omega⟩ : ptr ≤ i ∧ i < ptr + (N - ptr))]
          have hidx : i + N - (ptr + N) = i - ptr := by omega
          rw [hidx]
        · rw [if_neg (by omega : ¬(N ≤ i + N ∧ i + N < N + (dec.length - (N - ptr)))),
            if_neg (by omega : ¬(0 ≤ i + N ∧ i + N < 0 + (dec.length - (N - ptr)))),
            if_neg (by omega : ¬(ptr + N ≤ i + N ∧ i + N < ptr + N + (N - ptr))),
            if_neg (by omega : ¬(ptr ≤ i + N ∧ i + N < ptr + (N - ptr))),
            if_neg (by omega : ¬(N ≤ i ∧ i < N + (dec.length - (N - ptr)))),
            if_neg (by omega : ¬(0 ≤ i ∧ i < 0 + (dec.length - (N - ptr)))),
            if_neg (by omega : ¬(ptr + N ≤ i ∧ i < ptr + N + (N - ptr))),
            if_neg (by omega : ¬(ptr ≤ i ∧ i < ptr + (N - ptr)))]
          exact hm i hi
    · apply List.ext_getElem
      · rw [window_length, List.length_append, List.length_drop, window_length]
        omega
      · intro i h1 h2
        have hiN : i < N := by rw [window_length] at h1; exact h1
        rw [window_getElem]
        simp only [hc2]
        by_cases hio : i < N - dec.length
        · rw [List.getElem_append_left (by rw [List.length_drop, window_length]; omega)]
          rw [List.getElem_drop, window_getElem]
          simp only [writeSeg_apply, hrs, hc2]
          rw [if_neg (by omega : ¬(N ≤ dec.length - (N - ptr) + i ∧
              dec.length - (N - ptr) + i < N + (dec.length - (N - ptr)))),
            if_neg (by omega : ¬(0 ≤ dec.length - (N - ptr) + i ∧
              dec.length - (N - ptr) + i < 0 + (dec.length - (N - ptr)))),
            if_neg (by omega : ¬(ptr + N ≤ dec.length - (N - ptr) + i ∧
              dec.length - (N - ptr) + i < ptr + N + (N - ptr))),
            if_neg (by omega : ¬(ptr ≤ dec.length - (N - ptr) + i ∧
              dec.length - (N - ptr) + i < ptr + (N - ptr)))]
          have h3 : ptr + (dec.length + i) = dec.length - (N - ptr) + i + N := by omega
          rw [h3, hm (dec.length - (N - ptr) + i) (by omega)]
        · rw [List.getElem_append_right (by rw [List.length_drop, window_length]; omega)]
          simp only [List.length_drop, window_length]
          simp only [writeSeg_apply, hrs, hc2]
          by_cases hjN : dec.length - (N - ptr) + i < N
          · rw [if_neg (by omega : ¬(N ≤ dec.length - (N - ptr) + i ∧
                dec.length - (N - ptr) + i < N + (dec.length - (N - ptr)))),
              if_neg (by omega : ¬(0 ≤ dec.length - (N - ptr) + i ∧
                dec.length - (N - ptr) + i < 0 + (dec.length - (N - ptr)))),
              if_neg (by omega : ¬(ptr + N ≤ dec.length - (N - ptr) + i ∧
                dec.length - (N - ptr) + i < ptr + N + (N - ptr))),
              if_pos (⟨by omega, by omega⟩ : ptr ≤ dec.length - (N - ptr) + i ∧
                dec.length - (N - ptr) + i < ptr + (N - ptr))]
            rw [getD_take dec (N - ptr) _ 0 (by omega) (by omega)]
            have hidx : dec.length - (N - ptr) + i - ptr = i - (N - dec.length) := by omega
            rw [hidx]
            exact List.getD_eq_getElem _ _ (by omega)
          · rw [if_pos (⟨by omega, by omega⟩ : N ≤ dec.length - (N - ptr) + i ∧
                dec.length - (N - ptr) + i < N + (dec.length - (N - ptr)))]
            rw [getD_drop dec (N - ptr) _ 0 (by omega)]
            have hidx : N - ptr + (dec.length - (N - ptr) + i - N) = i - (N - dec.length) := by
              omega
            rw [hidx]
            exact List.getD_eq_getElem _ _ (by omega)

theorem truncate_eq_lastN (N : ℕ) (xs : List ℚ) :
    (if N < xs.length then xs.drop (xs.length - N) else xs) = lastN N xs := by
  rw [lastN]
  split_ifs with h
  · rfl
  · have h0 : xs.length - N = 0 := by omega
    rw [h0, List.drop_zero]

theorem updateBuffer_eq_pos (N D : ℕ) (st : BandState) (nd : List ℚ)
    (h : 0 < (st.rem ++ nd).length / D) :
    (updateBuffer N D st nd).2 =
      ⟨(doubleWrite N st.buf st.ptr (lastN N (decimateChunks D
          ((st.rem ++ nd).take ((st.rem ++ nd).length / D * D))))).1,
        (doubleWrite N st.buf st.ptr (lastN N (decimateChunks D
          ((st.rem ++ nd).take ((st.rem ++ nd).length / D * D))))).2,
        (st.rem ++ nd).drop ((st.rem ++ nd).length / D * D)⟩ := by
  simp only [updateBuffer]
  rw [if_pos h, truncate_eq_lastN]

theorem updateBuffer_eq_neg (N D : ℕ) (st : BandState) (nd : List ℚ)
    (h : ¬ 0 < (st.rem ++ nd).length / D) :
    (updateBuffer N D st nd).2 = ⟨st.buf, st.ptr, st.rem ++ nd⟩ := by
  simp only [updateBuffer]
  rw [if_neg h]

theorem updateBuffer_fst (N D : ℕ) (st : BandState) (nd : List ℚ) :
    (updateBuffer N D st nd).1 =
      window (updateBuffer N D st nd).2.buf (updateBuffer N D st nd).2.ptr N := by
  simp only [updateBuffer]
  by_cases h : 0 < (st.rem ++ nd).length / D
  · rw [if_pos h]
  · rw [if_neg h]

theorem updateBuffer_step (N D : ℕ) (hN : 0 < N) (hD : 0 < D) (st : BandState)
    (raw nd : List ℚ)
    (h1 : ∀ i, i < N → st.buf (i + N) = st.buf i)
    (h2 : st.ptr < N)
    (h3 : window st.buf st.ptr N = lastN N (List.replicate N 0 ++ decimateChunks D raw))
    (h4 : st.rem = raw.drop (raw.length / D * D))
    ( _h5 : st.rem.length < D) :
    (∀ i, i < N → (updateBuffer N D st nd).2.buf (i + N) = (updateBuffer N D st nd).2.buf i) ∧
      (updateBuffer N D st nd).2.ptr < N ∧
      window (updateBuffer N D st nd).2.buf (updateBuffer N D st nd).2.ptr N =
        lastN N (List.replicate N 0 ++ decimateChunks D (raw ++ nd)) ∧
      (updateBuffer N D st nd).2.rem = (raw ++ nd).drop ((raw ++ nd).length / D * D) ∧
      (updateBuffer N D st nd).2.rem.length < D := by
  have hFle : raw.length / D * D ≤ raw.length := Nat.div_mul_le_self _ _
  have hFsplit : raw = raw.take (raw.length / D * D) ++ st.rem := by
    rw [h4]
    exact (List.take_append_drop _ raw).symm
  have hFm : (raw.take (raw.length / D * D)).length = D * (raw.length / D) := by
    rw [List.length_take, min_eq_left hFle]
    exact Nat.mul_comm _ _
  have hraw' : raw ++ nd = raw.take (raw.length / D * D) ++ (st.rem ++ nd) := by
    conv_lhs => rw [hFsplit]
    rw [List.append_assoc]
  have hdecAll : decimateChunks D (raw ++ nd) =
      decimateChunks D raw ++ decimateChunks D (st.rem ++ nd) := by
    conv_lhs => rw [hraw']
    rw [decimateChunks_append D hD _ _ (raw.length / D) hFm, decimateChunks_take_full D hD raw]
  have hleft : (raw ++ nd).drop ((raw ++ nd).length / D * D) =
      (st.rem ++ nd).drop ((st.rem ++ nd).length / D * D) := by
    conv_lhs => rw [hraw']
    exact leftover_append D hD _ _ (raw.length / D) hFm
  have hdm : (st.rem ++ nd).length / D * D = D * ((st.rem ++ nd).length / D) :=
    Nat.mul_comm _ _
  have hdam := Nat.div_add_mod (st.rem ++ nd).length D
  have hmodlt := Nat.mod_lt (st.rem ++ nd).length hD
  by_cases hnb : 0 < (st.rem ++ nd).length / D
  · rw [updateBuffer_eq_pos N D st nd hnb]
    have hdec0full : decimateChunks D
        ((st.rem ++ nd).take ((st.rem ++ nd).length / D * D)) =
        decimateChunks D (st.rem ++ nd) := decimateChunks_take_full D hD _
    rw [hdec0full]
    have hlenle : (lastN N (decimateChunks D (st.rem ++ nd))).length ≤ N := by
      rw [lastN_length]
      omega
    obtain ⟨hm', hp', hw'⟩ := doubleWrite_spec N hN st.buf st.ptr
      (lastN N (decimateChunks D (st.rem ++ nd))) h1 h2 hlenle
    refine ⟨hm', hp', ?_, hleft.symm, ?_⟩
    · rw [hw', h3]
      have hspec : lastN N (List.replicate N 0 ++ decimateChunks D (raw ++ nd)) =
          (lastN N (List.replicate N 0 ++ decimateChunks D raw)).drop
            (min (decimateChunks D (st.rem ++ nd)).length N) ++
            lastN N (decimateChunks D (st.rem ++ nd)) := by
        rw [hdecAll, ← List.append_assoc]
        exact lastN_append N _ _ (by rw [List.length_append, List.length_replicate]; omega)
      rw [hspec, lastN_length, Nat.min_comm]
    · show ((st.rem ++ nd).drop ((st.rem ++ nd).length / D * D)).length < D
      rw [List.length_drop, hdm]
      omega
  · rw [updateBuffer_eq_neg N D st nd hnb]
    have hClt : (st.rem ++ nd).length < D := by
      rcases Nat.lt_or_ge (st.rem ++ nd).length D with h | h
      · exact h
      · exact absurd (Nat.div_pos h hD) hnb
    have hCzero : (st.rem ++ nd).length / D = 0 := Nat.div_eq_of_lt hClt
    refine ⟨h1, h2, ?_, ?_, hClt⟩
    · rw [h3, hdecAll, decimateChunks_nil_of_lt D _ hClt, List.append_nil]
    · rw [hleft, hCzero]
      simp

theorem range_map_sum (n : ℕ) (f : ℕ → ℚ) :
    ((List.range n).map f).sum = ∑ i in Finset.range n, f i := by
  induction n with
  | zero => simp
  | succ m ih =>
    rw [List.range_succ, List.map_append, List.sum_append, Finset.sum_range_succ, ih]
    simp

theorem chunk_eq_map (xs : List ℚ) (s n : ℕ) (h : s + n ≤ xs.length) :
    (xs.drop s).take n = (List.range n).map fun j => xs.getD (s + j) 0 := by
  apply List.ext_getElem
  · rw [List.length_take, List.length_drop, List.length_map, List.length_range]
    omega
  · intro i h1 h2
    have hi : s + i < xs.length := by
      rw [List.length_take, List.length_drop] at h1
      omega
    have hin : i < n := by
      rw [List.length_take, List.length_drop] at h1
      omega
    calc ((xs.drop s).take n)[i] = ((xs.drop s).take n).getD i 0 :=
          (List.getD_eq_getElem _ _ h1).symm
      _ = (xs.drop s).getD i 0 := getD_take _ _ _ _ hin (by rw [List.length_drop]; omega)
      _ = xs.getD (s + i) 0 := getD_drop _ _ _ _ hi
      _ = ((List.range n).map fun j => xs.getD (s + j) 0)[i] := by
          rw [List.getElem_map, List.getElem_range]

theorem chunk_sum (xs : List ℚ) (s n : ℕ) (h : s + n ≤ xs.length) :
    ((xs.drop s).take n).sum = ∑ j in Finset.range n, xs.getD (s + j) 0 := by
  rw [chunk_eq_map xs s n h, range_map_sum]

theorem runSession_snoc (N D : ℕ) (inputs : List (List ℚ)) (nd : List ℚ) :
    runSession N D (inputs ++ [nd]) = (updateBuffer N D (runSession N D inputs) nd).2 := by
  simp only [runSession, List.foldl_append, List.foldl_cons, List.foldl_nil]

theorem flatten_snoc (inputs : List (List ℚ)) (nd : List ℚ) :
    (inputs ++ [nd]).flatten = inputs.flatten ++ nd := by
  simp

theorem runSession_invariant (N D : ℕ) (hN : 0 < N) (hD : 0 < D)
    (inputs : List (List ℚ)) :
    (∀ i, i < N → (runSession N D inputs).buf (i + N) = (runSession N D inputs).buf i) ∧
      (runSession N D inputs).ptr < N ∧
      window (runSession N D inputs).buf (runSession N D inputs).ptr N =
        lastN N (List.replicate N 0 ++ decimateChunks D inputs.flatten) ∧
      (runSession N D inputs).rem = inputs.flatten.drop (inputs.flatten.length / D * D) ∧
      (runSession N D inputs).rem.length < D := by
  induction inputs using List.reverseRecOn with
  | nil =>
    have hrs : runSession N D [] = initBand := rfl
    have hj : (([] : List (List ℚ)).flatten) = ([] : List ℚ) := rfl
    rw [hrs, hj]
    refine ⟨fun i _ => rfl, hN, ?_, by simp [initBand], by simpa [initBand] using hD⟩
    show window (fun _ => (0 : ℚ)) 0 N = _
    rw [window_init]
    have hd : decimateChunks D ([] : List ℚ) = [] := by
      simp [decimateChunks]
    rw [hd, List.append_nil]
    exact (lastN_of_le N _ (by simp)).symm
  | append_singleton l a ih =>
    obtain ⟨h1, h2, h3, h4, h5⟩ := ih
    rw [runSession_snoc, flatten_snoc]
    exact updateBuffer_step N D hN hD (runSession N D l) l.flatten a h1 h2 h3 h4 h5

/-- C7: for every session (any sequence of captured input blocks) and every next
block, after the `_update_buffer` call on a band with half-length `N > 0` and
decimation factor `D > 0`: the double buffer mirrors (`buf[i+N] = buf[i]` for
`i < N`), the value returned by the call is the window `buffer[ptr : ptr+N]` of
the new state, that window holds exactly the `N` most-recent decimated samples
in chronological order, zero-filled at the start of the session, each decimated
sample is the arithmetic mean of `D` consecutive raw samples, and the undersized
leftover raw samples (fewer than `D`) are carried in the remainder. -/
theorem C7_buffer_invariant (N D : ℕ) (hN : 0 < N) (hD : 0 < D)
    (inputs : List (List ℚ)) (nd : List ℚ) :
    (∀ i, i < N → (runSession N D (inputs ++ [nd])).buf (i + N) =
        (runSession N D (inputs ++ [nd])).buf i) ∧
      (updateBuffer N D (runSession N D inputs) nd).1 =
        window (runSession N D (inputs ++ [nd])).buf
          (runSession N D (inputs ++ [nd])).ptr N ∧
      window (runSession N D (inputs ++ [nd])).buf
          (runSession N D (inputs ++ [nd])).ptr N =
        lastN N (List.replicate N 0 ++ decimateChunks D (inputs ++ [nd]).flatten) ∧
      (∀ k, k * D + D ≤ (inputs ++ [nd]).flatten.length →
        (decimateChunks D (inputs ++ [nd]).flatten).getD k 0 =
          (∑ j in Finset.range D, (inputs ++ [nd]).flatten.getD (k * D + j) 0) / (D : ℚ)) ∧
      (runSession N D (inputs ++ [nd])).rem =
        (inputs ++ [nd]).flatten.drop ((inputs ++ [nd]).flatten.length / D * D) ∧
      (runSession N D (inputs ++ [nd])).rem.length < D := by
  obtain ⟨h1, h2, h3, h4, h5⟩ := runSession_invariant N D hN hD (inputs ++ [nd])
  refine ⟨h1, ?_, h3, ?_, h4, h5⟩
  · rw [runSession_snoc, updateBuffer_fst]
  · intro k hk
    have hmul : (k + 1) * D ≤ (inputs ++ [nd]).flatten.length := by
      calc (k + 1) * D = k * D + D := by ring
        _ ≤ _ := hk
    have hkd : k < (inputs ++ [nd]).flatten.length / D := by
      have := (Nat.le_div_iff_mul_le hD).mpr hmul
      omega
    rw [decimateChunks_getD D hD _ k hkd, chunk_sum _ _ _ hk]

theorem C7_buffer_invariant_witness :
    0 < 2 ∧ 0 < 2 ∧
      window (runSession 2 2 (([[1, 2, 3]] : List (List ℚ)) ++ [[5]])).buf
          (runSession 2 2 (([[1, 2, 3]] : List (List ℚ)) ++ [[5]])).ptr 2 =
        lastN 2 (List.replicate 2 0 ++ decimateChunks 2 (([[1, 2, 3]] : List (List ℚ)) ++ [[5]]).flatten) ∧
      (runSession 2 2 (([[1, 2, 3]] : List (List ℚ)) ++ [[5]])).rem.length < 2 :=
  ⟨by decide, by decide,
    (C7_buffer_invariant 2 2 (by decide) (by decide) ([[1, 2, 3]] : List (List ℚ)) [5]).2.2.1,
    (C7_buffer_invariant 2 2 (by decide) (by decide) ([[1, 2, 3]] : List (List ℚ)) [5]).2.2.2.2.2⟩

end YinChroma
